import Mathlib

/-!
# Verification of the `RootFinder` core (`src/groebner/root_finder.py`)

This file is a shallow embedding, in Lean 4, of the `RootFinder` class:

* monomials are exponent vectors `Fin n → ℕ`, mirroring the Python exponent
  tuples; the term order is lexicographic (most significant variable first);
* polynomials are finitely supported maps from monomials to `ℚ`; the Python
  code stores coefficients in a dense `numpy` float array, which we embed as
  the (mathematically exact) finitely supported coefficient function, with
  rational instead of floating-point scalars;
* the quotient-basis construction `makeVectorBasis` works on raw exponent
  lists (Python tuples), exactly as the code does via `zip`, `range`, `max`
  and `itertools.product`;
* Python exceptions are embedded with an `Except` error channel;
* the division loop (`reduce_poly`) is embedded both in its fresh-argument
  form (the argument polynomial is a new object, distinct from every stored
  basis member, so the identity test `other != poly` never skips anything)
  and in its aliased form (the argument is the `k`-th stored basis member
  itself, so the iteration skips index `k` and the in-place
  `poly.__init__(new_coeff)` updates overwrite that stored member).
-/

namespace GroebnerSpec

/-- Monomials in `n` variables: exponent vectors, one natural number per
variable, mirroring the Python exponent tuples of `root_finder.py`. -/
def Mono (n : ℕ) : Type := Fin n → ℕ

namespace Mono

variable {n : ℕ}

instance instDecEq : DecidableEq (Mono n) := by unfold Mono; infer_instance

/-- Pointwise sum of exponent vectors (monomial multiplication). -/
def add (a b : Mono n) : Mono n := fun i => a i + b i

/-- Pointwise truncated difference of exponent vectors (monomial quotient;
the code only forms it after checking divisibility, where it is exact). -/
def sub (a b : Mono n) : Mono n := fun i => a i - b i

/-- The divisibility test inlined in the division loop of `reduce_poly`
(line 147): `all([i-j >= 0 for i,j in zip(poly.lead_term,other.lead_term)])`,
i.e. every per-variable exponent difference is non-negative. -/
def divides (d m : Mono n) : Prop := ∀ i, d i ≤ m i

instance instDecDivides (d m : Mono n) : Decidable (divides d m) := by
  unfold divides; infer_instance

/-- Strict lexicographic order on exponent vectors, most significant
variable first.  Modelled from the spec: the polynomial ADT (external
collaborator `multi_power.py`, not under `src/`) fixes a total term order;
the spec's design notes name lexicographic order as the representative. -/
def lt (a b : Mono n) : Prop :=
  ∃ i, a i < b i ∧ ∀ j, j < i → a j = b j

instance instDecLt : DecidableRel (@lt n) := fun a b => by
  unfold lt; infer_instance

theorem lt_trans_mono {a b c : Mono n} (hab : lt a b) (hbc : lt b c) :
    lt a c := by
  obtain ⟨i, hi, hi2⟩ := hab
  obtain ⟨j, hj, hj2⟩ := hbc
  rcases lt_trichotomy i j with h | h | h
  · exact ⟨i, by rw [← hj2 i h]; exact hi,
      fun k hk => (hi2 k hk).trans (hj2 k (hk.trans h))⟩
  · subst h
    exact ⟨i, hi.trans hj, fun k hk => (hi2 k hk).trans (hj2 k hk)⟩
  · exact ⟨j, by rw [hi2 j h]; exact hj,
      fun k hk => (hi2 k (hk.trans h)).trans (hj2 k hk)⟩

theorem lt_irrefl_mono (a : Mono n) : ¬ lt a a := by
  rintro ⟨i, hi, -⟩
  exact Nat.lt_irrefl _ hi

theorem lt_trichot (a b : Mono n) : lt a b ∨ a = b ∨ lt b a := by
  by_cases hab : a = b
  · exact Or.inr (Or.inl hab)
  have hne : (Finset.univ.filter (fun i => a i ≠ b i)).Nonempty := by
    rcases Function.ne_iff.mp hab with ⟨i, hi⟩
    exact ⟨i, by simp [hi]⟩
  set s : Finset (Fin n) := Finset.univ.filter (fun i => a i ≠ b i) with hs
  have hmem : s.min' hne ∈ s := s.min'_mem hne
  have hminne : a (s.min' hne) ≠ b (s.min' hne) := by
    simpa [hs] using hmem
  have hmin : ∀ j, j < s.min' hne → a j = b j := by
    intro j hj
    by_contra hjne
    have hjs : j ∈ s := by simp [hs, hjne]
    exact absurd (s.min'_le j hjs) (not_le.mpr hj)
  rcases Nat.lt_or_ge (a (s.min' hne)) (b (s.min' hne)) with h | h
  · exact Or.inl ⟨_, h, hmin⟩
  · have hlt : b (s.min' hne) < a (s.min' hne) :=
      lt_of_le_of_ne h (fun hh => hminne hh.symm)
    exact Or.inr (Or.inr ⟨_, hlt, fun j hj => (hmin j hj).symm⟩)

instance instIsTrichot : IsTrichotomous (Mono n) lt := ⟨lt_trichot⟩

instance instIsTrans : IsTrans (Mono n) lt := ⟨fun _ _ _ => lt_trans_mono⟩

instance instIsIrrefl : IsIrrefl (Mono n) lt := ⟨lt_irrefl_mono⟩

instance instIsSTO : IsStrictTotalOrder (Mono n) lt := { }

instance instLinearOrder : LinearOrder (Mono n) := linearOrderOfSTO lt

theorem lt_iff {a b : Mono n} : a < b ↔ lt a b := Iff.rfl

/-- Lexicographic comparison is invariant under translation by a fixed
exponent vector; this is what makes monomial multiplication monotone. -/
theorem add_lt_add_left_mono {a b : Mono n} (s : Mono n) (h : lt a b) :
    lt (add s a) (add s b) := by
  obtain ⟨i, hi, hi2⟩ := h
  exact ⟨i, by simpa [add] using hi, fun j hj => by simp [add, hi2 j hj]⟩

/-- The lexicographic order on exponent vectors with finitely many
variables is well-founded. -/
theorem lt_wf : WellFounded (@lt n) := by
  have h : WellFounded ((· < ·) : Lex (Fin n →₀ ℕ) → Lex (Fin n →₀ ℕ) → Prop) :=
    IsWellFounded.wf
  have hsub : Subrelation (@lt n)
      (InvImage (· < ·) fun a : Mono n => toLex (Finsupp.equivFunOnFinite.symm a)) := by
    rintro a b ⟨i, hi, hi2⟩
    exact ⟨i, fun j hj => hi2 j hj, hi⟩
  exact Subrelation.wf hsub (InvImage.wf _ h)

instance instWFLT : WellFoundedLT (Mono n) := ⟨lt_wf⟩

end Mono

/-- Polynomials: finitely supported rational coefficient functions on
monomials.  The Python `MultiPower` object stores a dense `numpy` float
coefficient array; the array's shape bookkeeping (`pad_back`, `lcm` of
shapes) only serves to align two arrays before subtraction and has no
semantic content, so the embedding works with the coefficient function
directly.  Coefficients are embedded as exact rationals. -/
abbrev Poly (n : ℕ) : Type := Mono n →₀ ℚ

variable {n : ℕ}

/-- `MultiPower.lead_term`, modelled from the spec: the monomial maximal
under the term order among the monomials with nonzero coefficient, or the
`None` sentinel (`⊥`) for the empty polynomial. -/
def leadTerm (p : Poly n) : WithBot (Mono n) := p.support.max

/-- `MultiPower.lead_coeff`, modelled from the spec: the coefficient of the
leading term (junk value `0` for the empty polynomial). -/
def leadCoeff (p : Poly n) : ℚ :=
  match leadTerm p with
  | ⊥ => 0
  | (m : Mono n) => p m

theorem addLeft_injective (d : Mono n) :
    Function.Injective (fun μ : Mono n => Mono.add d μ) := by
  intro a b hab
  funext i
  have h := congrFun hab i
  simpa [Mono.add] using h

theorem divides_add (m μ : Mono n) : Mono.divides m (Mono.add m μ) :=
  fun i => Nat.le_add_right _ _

theorem sub_add_eq (m μ : Mono n) : Mono.sub (Mono.add m μ) m = μ :=
  funext fun _ => by simp [Mono.add, Mono.sub]

theorem add_sub_eq {m a : Mono n} (h : Mono.divides m a) :
    Mono.add m (Mono.sub a m) = a :=
  funext fun i => Nat.add_sub_cancel' (h i)

/-- `MultiPower.mon_mult(monomial)`: multiply a polynomial by the monomial
`x^m`, i.e. shift every exponent vector by `m`. -/
def monMult (m : Mono n) (p : Poly n) : Poly n where
  support := p.support.map ⟨fun μ => Mono.add m μ, addLeft_injective m⟩
  toFun x := if Mono.divides m x then p (Mono.sub x m) else 0
  mem_support_toFun x := by
    dsimp only
    constructor
    · intro hx
      obtain ⟨μ, hμ, heq⟩ := Finset.mem_map.mp hx
      have heq2 : Mono.add m μ = x := heq
      subst heq2
      rw [if_pos (divides_add m μ), sub_add_eq]
      exact Finsupp.mem_support_iff.mp hμ
    · intro hx
      by_cases hd : Mono.divides m x
      · rw [if_pos hd] at hx
        exact Finset.mem_map.mpr
          ⟨Mono.sub x m, Finsupp.mem_support_iff.mpr hx, add_sub_eq hd⟩
      · rw [if_neg hd] at hx
        exact absurd rfl hx

/-- The zero-snapping tolerance `1.e-10` from line 164 of the source. -/
def snapTol : ℚ := 1 / 10 ^ 10

/-- `new_coeff[np.where(abs(new_coeff) < 1.e-10)] = 0` (line 164): set every
coefficient of magnitude below the tolerance to exact zero. -/
def snap (p : Poly n) : Poly n :=
  Finsupp.filter (fun m => ¬ |p m| < snapTol) p

/-- The part discarded by `snap`: the coefficients of magnitude below the
tolerance. -/
def snapDiscard (p : Poly n) : Poly n :=
  Finsupp.filter (fun m => |p m| < snapTol) p

/-- `pad_poly.coeff - (poly.lead_coeff/other.lead_coeff)*pad_new.coeff`
(line 163): the coefficientwise combination `p - c * q`, built with an
explicit support so that it stays executable. -/
def elimComb (c : ℚ) (p q : Poly n) : Poly n where
  support := (p.support ∪ q.support).filter (fun m => p m - c * q m ≠ 0)
  toFun m := p m - c * q m
  mem_support_toFun m := by
    simp only [Finset.mem_filter, Finset.mem_union, Finsupp.mem_support_iff]
    constructor
    · exact fun h => h.2
    · intro h
      refine ⟨?_, h⟩
      by_contra hc
      push_neg at hc
      rw [hc.1, hc.2] at h
      simp at h

/-- One elimination step of the division loop (lines 150-165): subtract
`(poly.lead_coeff / other.lead_coeff) * other.mon_mult(lead_term difference)`
from `poly` and snap small coefficients to zero. -/
def elimStep (p other : Poly n) (ltp lto : Mono n) : Poly n :=
  snap (elimComb (leadCoeff p / leadCoeff other) p
    (monMult (Mono.sub ltp lto) other))

theorem snapTol_pos : (0 : ℚ) < snapTol := by norm_num [snapTol]

theorem snap_add_snapDiscard (p : Poly n) : snap p + snapDiscard p = p := by
  ext m
  by_cases h : |p m| < snapTol <;>
    simp [snap, snapDiscard, Finsupp.filter_apply, h]

theorem snapDiscard_small (p : Poly n) (m : Mono n) :
    |snapDiscard p m| < snapTol := by
  by_cases h : |p m| < snapTol <;>
    simp [snapDiscard, Finsupp.filter_apply, h, snapTol_pos]

theorem support_snap_subset (p : Poly n) : (snap p).support ⊆ p.support := by
  rw [snap, Finsupp.support_filter]
  exact Finset.filter_subset _ _

theorem leadTerm_eq_coe_iff {p : Poly n} {m : Mono n} :
    leadTerm p = (m : WithBot (Mono n)) → m ∈ p.support := by
  intro h
  exact Finset.mem_of_max h

theorem coe_le_leadTerm {p : Poly n} {m : Mono n} (h : m ∈ p.support) :
    (m : WithBot (Mono n)) ≤ leadTerm p :=
  Finset.le_max h

theorem leadCoeff_eq {p : Poly n} {m : Mono n}
    (h : leadTerm p = (m : WithBot (Mono n))) : leadCoeff p = p m := by
  simp [leadCoeff, h]

theorem leadCoeff_ne_zero {p : Poly n} {m : Mono n}
    (h : leadTerm p = (m : WithBot (Mono n))) : leadCoeff p ≠ 0 := by
  rw [leadCoeff_eq h]
  exact Finsupp.mem_support_iff.mp (leadTerm_eq_coe_iff h)

theorem mono_le_iff {a b : Mono n} : a ≤ b ↔ a = b ∨ Mono.lt a b := Iff.rfl

theorem add_le_add_left_mono {a b : Mono n} (d : Mono n) (h : a ≤ b) :
    Mono.add d a ≤ Mono.add d b := by
  rcases mono_le_iff.mp h with h | h
  · subst h; exact le_refl _
  · exact mono_le_iff.mpr (Or.inr (Mono.add_lt_add_left_mono d h))

theorem add_sub_cancel_of_divides {lto ltp : Mono n}
    (h : Mono.divides lto ltp) :
    Mono.add (Mono.sub ltp lto) lto = ltp := by
  funext i
  exact Nat.sub_add_cancel (h i)

theorem monMult_apply (m : Mono n) (p : Poly n) (x : Mono n) :
    monMult m p x = if Mono.divides m x then p (Mono.sub x m) else 0 := rfl

theorem monMult_apply_add (m : Mono n) (p : Poly n) (μ : Mono n) :
    monMult m p (Mono.add m μ) = p μ := by
  rw [monMult_apply, if_pos (divides_add m μ), sub_add_eq]

theorem support_monMult (m : Mono n) (p : Poly n) :
    (monMult m p).support =
      p.support.map ⟨fun μ => Mono.add m μ, addLeft_injective m⟩ :=
  rfl

/-- Every monomial of the elimination step's output is strictly below the
eliminated leading term: the leading coefficients cancel exactly, every
other monomial of the two operands is lexicographically smaller, and the
snap only removes monomials. -/
theorem elimComb_apply (c : ℚ) (p q : Poly n) (m : Mono n) :
    elimComb c p q m = p m - c * q m := rfl

theorem support_elimComb_subset (c : ℚ) (p q : Poly n) :
    (elimComb c p q).support ⊆ p.support ∪ q.support :=
  Finset.filter_subset _ _

theorem elimStep_support_lt {p other : Poly n} {ltp lto : Mono n}
    (hp : leadTerm p = (ltp : WithBot (Mono n)))
    (ho : leadTerm other = (lto : WithBot (Mono n)))
    (hdiv : Mono.divides lto ltp) :
    ∀ x ∈ (elimStep p other ltp lto).support, Mono.lt x ltp := by
  intro x hx
  set c : ℚ := leadCoeff p / leadCoeff other with hc
  set sh : Poly n := monMult (Mono.sub ltp lto) other with hsh
  have hx2 : x ∈ (elimComb c p sh).support := support_snap_subset _ hx
  have hxne : elimComb c p sh x ≠ 0 := Finsupp.mem_support_iff.mp hx2
  -- the value at the eliminated leading term is exactly zero
  have hcancel : elimComb c p sh ltp = 0 := by
    have hshval : sh ltp = other lto := by
      have h2 := monMult_apply_add (Mono.sub ltp lto) other lto
      rw [add_sub_cancel_of_divides hdiv] at h2
      rw [hsh]
      exact h2
    have holc : leadCoeff other = other lto := leadCoeff_eq ho
    have hplc : leadCoeff p = p ltp := leadCoeff_eq hp
    have hone : other lto ≠ 0 := by
      rw [← holc]; exact leadCoeff_ne_zero ho
    rw [elimComb_apply, hshval, hc, holc, hplc]
    field_simp
  have hxlt : x ≠ ltp := by
    intro h
    rw [h] at hxne
    exact hxne hcancel
  -- x is bounded by the leading term
  have hxle : x ≤ ltp := by
    have hx3 : x ∈ p.support ∪ sh.support := support_elimComb_subset c p sh hx2
    rcases Finset.mem_union.mp hx3 with h | h
    · have hle := coe_le_leadTerm h
      rw [hp] at hle
      exact_mod_cast hle
    · have h3 : x ∈ other.support.map
          ⟨fun μ => Mono.add (Mono.sub ltp lto) μ,
            addLeft_injective (Mono.sub ltp lto)⟩ := by
        rw [hsh] at h
        rw [← support_monMult]
        exact h
      obtain ⟨μ, hμ, heq⟩ := Finset.mem_map.mp h3
      have heq2 : Mono.add (Mono.sub ltp lto) μ = x := heq
      have hμle : μ ≤ lto := by
        have hle := coe_le_leadTerm hμ
        rw [ho] at hle
        exact_mod_cast hle
      rw [← heq2]
      calc Mono.add (Mono.sub ltp lto) μ
          ≤ Mono.add (Mono.sub ltp lto) lto := add_le_add_left_mono _ hμle
        _ = ltp := add_sub_cancel_of_divides hdiv
  rcases mono_le_iff.mp hxle with h | h
  · exact absurd h hxlt
  · exact h

theorem finsetMax_lt_coe {α : Type} [LinearOrder α] {s : Finset α} {a : α}
    (h : ∀ x ∈ s, x < a) : s.max < (a : WithBot α) := by
  rcases hmax : s.max with _ | m
  · exact WithBot.bot_lt_coe a
  · have hm : m ∈ s := Finset.mem_of_max hmax
    exact WithBot.coe_lt_coe.mpr (h m hm)

/-- The leading term strictly decreases at every applicable elimination
step. -/
theorem elimStep_leadTerm_lt {p other : Poly n} {ltp lto : Mono n}
    (hp : leadTerm p = (ltp : WithBot (Mono n)))
    (ho : leadTerm other = (lto : WithBot (Mono n)))
    (hdiv : Mono.divides lto ltp) :
    leadTerm (elimStep p other ltp lto) < leadTerm p := by
  rw [hp]
  exact finsetMax_lt_coe fun x hx =>
    Mono.lt_iff.mpr (elimStep_support_lt hp ho hdiv x hx)

/-! ## The division loop (`reduce_poly`, lines 141-171)

The loop is embedded relative to the identity test `other != poly` of
line 147 (`MultiPower` defines no `__eq__`, and the spec reads the test as
"skipping self-comparison"): `skipIdx = none` models a freshly constructed
argument object, never identical to a stored member, so nothing is ever
skipped; `skipIdx = some k` models the aliased call whose argument is the
`k`-th stored basis member itself, so index `k` is skipped and the final
in-place state of that member is the computed remainder. -/

/-- The leading term with a junk default for the empty polynomial; only
read under a guard that the leading term exists. -/
def ltDefault (p : Poly n) : Mono n := (leadTerm p).unbot' (fun _ => 0)

theorem ltDefault_eq {p : Poly n} {m : Mono n}
    (h : leadTerm p = (m : WithBot (Mono n))) : ltDefault p = m := by
  rw [ltDefault, h]
  rfl

/-- One execution of the body of `for other in self.old_polys`
(lines 144-168): skip if either operand has no leading term or if `other`
is the working polynomial object itself; otherwise, if `other`'s leading
term divides the current leading term, run the elimination step and record
that a change occurred. -/
def passStep (skip : Bool) (p other : Poly n) : Poly n × Bool :=
  if leadTerm p ≠ ⊥ ∧ leadTerm other ≠ ⊥ ∧ skip = false ∧
      Mono.divides (ltDefault other) (ltDefault p)
  then (elimStep p other (ltDefault p) (ltDefault other), true)
  else (p, false)

/-- One full pass of the `for` loop over the basis list, threading the
working polynomial and OR-ing the `change` flag; `i` is the index of the
first element of `B` within the full basis list (used for the alias skip). -/
def reducePass (s : Option ℕ) (B : List (Poly n)) (i : ℕ) (p : Poly n) :
    Poly n × Bool :=
  match B with
  | [] => (p, false)
  | other :: rest =>
    ((reducePass s rest (i + 1) (passStep (decide (s = some i)) p other).1).1,
      (passStep (decide (s = some i)) p other).2 ||
        (reducePass s rest (i + 1) (passStep (decide (s = some i)) p other).1).2)

theorem passStep_false {skip : Bool} {p other : Poly n}
    (h : (passStep skip p other).2 = false) :
    (passStep skip p other).1 = p := by
  unfold passStep at h ⊢
  by_cases hc : leadTerm p ≠ ⊥ ∧ leadTerm other ≠ ⊥ ∧ skip = false ∧
      Mono.divides (ltDefault other) (ltDefault p)
  · rw [if_pos hc] at h
    simp at h
  · rw [if_neg hc]

theorem passStep_true {skip : Bool} {p other : Poly n}
    (h : (passStep skip p other).2 = true) :
    leadTerm (passStep skip p other).1 < leadTerm p := by
  unfold passStep at h ⊢
  by_cases hc : leadTerm p ≠ ⊥ ∧ leadTerm other ≠ ⊥ ∧ skip = false ∧
      Mono.divides (ltDefault other) (ltDefault p)
  · rw [if_pos hc] at h ⊢
    obtain ⟨hp, ho, -, hdiv⟩ := hc
    obtain ⟨ltp, hltp⟩ := WithBot.ne_bot_iff_exists.mp hp
    obtain ⟨lto, hlto⟩ := WithBot.ne_bot_iff_exists.mp ho
    rw [ltDefault_eq hltp.symm, ltDefault_eq hlto.symm] at hdiv ⊢
    exact elimStep_leadTerm_lt hltp.symm hlto.symm hdiv
  · rw [if_neg hc] at h
    simp at h

theorem passStep_false_no_div {skip : Bool} {p other : Poly n}
    {ltp lto : Mono n} (h : (passStep skip p other).2 = false)
    (hp : leadTerm p = (ltp : WithBot (Mono n)))
    (ho : leadTerm other = (lto : WithBot (Mono n))) (hs : skip = false) :
    ¬ Mono.divides lto ltp := by
  intro hdiv
  unfold passStep at h
  rw [if_pos] at h
  · simp at h
  · refine ⟨by simp [hp], by simp [ho], hs, ?_⟩
    rw [ltDefault_eq hp, ltDefault_eq ho]
    exact hdiv

theorem reducePass_false {s : Option ℕ} {B : List (Poly n)} {i : ℕ}
    {p : Poly n} (h : (reducePass s B i p).2 = false) :
    (reducePass s B i p).1 = p := by
  induction B generalizing i p with
  | nil => rfl
  | cons other rest IH =>
    unfold reducePass at h ⊢
    dsimp only at h ⊢
    rw [Bool.or_eq_false_iff] at h
    rw [IH h.2, passStep_false h.1]

theorem reducePass_true {s : Option ℕ} {B : List (Poly n)} {i : ℕ}
    {p : Poly n} (h : (reducePass s B i p).2 = true) :
    leadTerm (reducePass s B i p).1 < leadTerm p := by
  induction B generalizing i p with
  | nil => simp [reducePass] at h
  | cons other rest IH =>
    unfold reducePass at h ⊢
    dsimp only at h ⊢
    rcases hr2 : (reducePass s rest (i + 1)
        (passStep (decide (s = some i)) p other).1).2 with _ | _
    · have hr1 : (passStep (decide (s = some i)) p other).2 = true := by
        rw [hr2, Bool.or_false] at h
        exact h
      rw [reducePass_false hr2]
      exact passStep_true hr1
    · have hlt := IH hr2
      rcases hp1 : (passStep (decide (s = some i)) p other).2 with _ | _
      · nth_rewrite 2 [passStep_false hp1] at hlt
        exact hlt
      · exact lt_trans hlt (passStep_true hp1)

instance instWFRelWithBotMono : WellFoundedRelation (WithBot (Mono n)) :=
  ⟨(· < ·), IsWellFounded.wf⟩

/-- The outer `while change:` fixed-point loop (lines 141-170): repeat full
passes over the basis until a pass makes no change, then return the working
polynomial. -/
def reduceLoop (s : Option ℕ) (B : List (Poly n)) (p : Poly n) : Poly n :=
  if h : (reducePass s B 0 p).2 = true then
    reduceLoop s B (reducePass s B 0 p).1
  else (reducePass s B 0 p).1
termination_by leadTerm p
decreasing_by exact reducePass_true h

theorem reduceLoop_fix {s : Option ℕ} {B : List (Poly n)} {p : Poly n}
    (h : (reducePass s B 0 p).2 = false) : reduceLoop s B p = p := by
  rw [reduceLoop]
  rw [dif_neg (by simp [h])]
  exact reducePass_false h

theorem reduceLoop_step {s : Option ℕ} {B : List (Poly n)} {p : Poly n}
    (h : (reducePass s B 0 p).2 = true) :
    reduceLoop s B p = reduceLoop s B (reducePass s B 0 p).1 := by
  rw [reduceLoop]
  rw [dif_pos h]

/-- The loop exits: when `reduceLoop` returns, one more pass over the basis
produces no change.  (This is the denotational statement that the
`while change:` loop terminates.) -/
theorem reduceLoop_terminates (s : Option ℕ) (B : List (Poly n)) :
    ∀ p : Poly n, (reducePass s B 0 (reduceLoop s B p)).2 = false := by
  have hwf : WellFounded (InvImage ((· < ·) : WithBot (Mono n) → _ → Prop)
      (leadTerm (n := n))) := InvImage.wf _ IsWellFounded.wf
  intro p
  induction p using hwf.induction with
  | _ p IH =>
    by_cases h : (reducePass s B 0 p).2 = true
    · rw [reduceLoop_step h]
      exact IH _ (reducePass_true h)
    · rw [reduceLoop_fix (by simpa using h)]
      simpa using h

/-- `RootFinder.getRemainder` / `Groebner.reduce_poly(poly, basis)` on a
freshly constructed polynomial object (the object is distinct from every
stored basis member, so the `other != poly` identity test never skips). -/
def reduce (p : Poly n) (B : List (Poly n)) : Poly n := reduceLoop none B p

/-- The division call whose argument is the `k`-th stored basis member
itself.  Iteration skips index `k` (identity test) and the in-place
`poly.__init__(new_coeff)` mutations (line 165) leave the stored member
holding the computed remainder: the call returns the remainder together
with the post-call contents of the stored basis list. -/
def reduceAliased (B : List (Poly n)) (k : ℕ) : Poly n × List (Poly n) :=
  (reduceLoop (some k) B (B.getD k 0),
    B.set k (reduceLoop (some k) B (B.getD k 0)))

/-! ## Ideal membership up to snapped noise -/

/-- Pointwise sum of two polynomials (with an explicit support, so that it
stays executable). -/
def polyAdd (p q : Poly n) : Poly n where
  support := (p.support ∪ q.support).filter (fun m => p m + q m ≠ 0)
  toFun m := p m + q m
  mem_support_toFun m := by
    simp only [Finset.mem_filter, Finset.mem_union, Finsupp.mem_support_iff]
    constructor
    · exact fun h => h.2
    · intro h
      refine ⟨?_, h⟩
      by_contra hc
      push_neg at hc
      rw [hc.1, hc.2] at h
      simp at h

/-- Pointwise scalar multiple of a polynomial. -/
def polyScale (c : ℚ) (q : Poly n) : Poly n where
  support := q.support.filter (fun m => c * q m ≠ 0)
  toFun m := c * q m
  mem_support_toFun m := by
    simp only [Finset.mem_filter, Finsupp.mem_support_iff]
    constructor
    · exact fun h => h.2
    · intro h
      exact ⟨fun hz => h (by rw [hz, mul_zero]), h⟩

theorem polyAdd_apply (p q : Poly n) (m : Mono n) :
    polyAdd p q m = p m + q m := rfl

theorem polyScale_apply (c : ℚ) (q : Poly n) (m : Mono n) :
    polyScale c q m = c * q m := rfl

/-- Sum of a list of polynomials. -/
def polyListSum (S : List (Poly n)) : Poly n := S.foldr polyAdd 0

theorem polyListSum_nil_apply (m : Mono n) :
    polyListSum ([] : List (Poly n)) m = 0 := rfl

theorem polyListSum_cons_apply (q : Poly n) (S : List (Poly n)) (m : Mono n) :
    polyListSum (q :: S) m = q m + polyListSum S m := rfl

theorem polyListSum_append_apply (A B : List (Poly n)) (m : Mono n) :
    polyListSum (A ++ B) m = polyListSum A m + polyListSum B m := by
  induction A with
  | nil => simp [polyListSum_nil_apply, polyListSum_cons_apply]
  | cons q rest IH =>
    rw [List.cons_append, polyListSum_cons_apply, polyListSum_cons_apply, IH]
    ring

/-- A scaled monomial multiple `c * x^m * g` of a polynomial `g`: the shape
of the quantity subtracted from the working polynomial at one elimination
step. -/
def comboTerm (t : ℚ × Mono n × Poly n) : Poly n :=
  polyScale t.1 (monMult t.2.1 t.2.2)

/-- A finite sum of scaled monomial multiples; every element of the ideal
generated by a finite basis is of this shape, and conversely. -/
def comboSum (L : List (ℚ × Mono n × Poly n)) : Poly n :=
  polyListSum (L.map comboTerm)

/-- Every coefficient is below the snapping tolerance `1e-10`. -/
def IsSmall (q : Poly n) : Prop := ∀ m, |q m| < snapTol

/-- `p - r` equals a sum of scaled monomial multiples of members of `B`
(an element of the ideal generated by `B`) plus finitely many snapped
noise polynomials, each with all coefficients below the tolerance. -/
def Decomposes (B : List (Poly n)) (p r : Poly n) : Prop :=
  ∃ L S, (∀ t ∈ L, t.2.2 ∈ B) ∧ (∀ q ∈ S, IsSmall q) ∧
    ∀ m, p m = comboSum L m + polyListSum S m + r m

theorem decomposes_refl (B : List (Poly n)) (p : Poly n) : Decomposes B p p := by
  refine ⟨[], [], by simp, by simp, fun m => ?_⟩
  have h1 : comboSum [] m = 0 := rfl
  have h2 : polyListSum ([] : List (Poly n)) m = 0 := rfl
  rw [h1, h2]
  ring

theorem decomposes_trans {B : List (Poly n)} {p q r : Poly n}
    (h1 : Decomposes B p q) (h2 : Decomposes B q r) : Decomposes B p r := by
  obtain ⟨L1, S1, hL1, hS1, he1⟩ := h1
  obtain ⟨L2, S2, hL2, hS2, he2⟩ := h2
  refine ⟨L1 ++ L2, S1 ++ S2, ?_, ?_, fun m => ?_⟩
  · intro t ht
    rcases List.mem_append.mp ht with h | h
    · exact hL1 t h
    · exact hL2 t h
  · intro x hx
    rcases List.mem_append.mp hx with h | h
    · exact hS1 x h
    · exact hS2 x h
  · have hc : comboSum (L1 ++ L2) m = comboSum L1 m + comboSum L2 m := by
      rw [comboSum, List.map_append, polyListSum_append_apply]
      rfl
    rw [hc, polyListSum_append_apply, he1 m, he2 m]
    ring

theorem snap_apply_add_discard (q : Poly n) (m : Mono n) :
    snap q m + snapDiscard q m = q m := by
  by_cases h : |q m| < snapTol <;>
    simp [snap, snapDiscard, Finsupp.filter_apply, h]

/-- One elimination step only subtracts a scaled monomial multiple of the
basis member used, plus the coefficients snapped to zero. -/
theorem elimStep_decomposes {B : List (Poly n)} {p other : Poly n}
    (ho : other ∈ B) (ltp lto : Mono n) :
    Decomposes B p (elimStep p other ltp lto) := by
  set c : ℚ := leadCoeff p / leadCoeff other with hc
  set q : Poly n := elimComb c p (monMult (Mono.sub ltp lto) other) with hq
  refine ⟨[(c, Mono.sub ltp lto, other)], [snapDiscard q],
    by simpa using ho, by simpa using snapDiscard_small q, fun m => ?_⟩
  have h1 : comboSum [(c, Mono.sub ltp lto, other)] m =
      c * monMult (Mono.sub ltp lto) other m := by
    show polyAdd (comboTerm (c, Mono.sub ltp lto, other)) 0 m = _
    rw [polyAdd_apply]
    show polyScale c (monMult (Mono.sub ltp lto) other) m + (0 : Poly n) m = _
    rw [polyScale_apply]
    simp
  have h2 : polyListSum [snapDiscard q] m = snapDiscard q m := by
    rw [polyListSum_cons_apply, polyListSum_nil_apply]
    ring
  have h3 : elimStep p other ltp lto m = snap q m := rfl
  have h4 : snap q m + snapDiscard q m = q m := snap_apply_add_discard q m
  have h5 : q m = p m - c * monMult (Mono.sub ltp lto) other m := by
    rw [hq, elimComb_apply]
  rw [h1, h2, h3]
  linarith [h4, h5]

theorem passStep_decomposes {B : List (Poly n)} {other : Poly n}
    (ho : other ∈ B) (skip : Bool) (p : Poly n) :
    Decomposes B p (passStep skip p other).1 := by
  unfold passStep
  by_cases hcond : leadTerm p ≠ ⊥ ∧ leadTerm other ≠ ⊥ ∧ skip = false ∧
      Mono.divides (ltDefault other) (ltDefault p)
  · rw [if_pos hcond]
    exact elimStep_decomposes ho _ _
  · rw [if_neg hcond]
    exact decomposes_refl B p

theorem reducePass_decomposes {B : List (Poly n)} {sub : List (Poly n)}
    (hsub : ∀ x ∈ sub, x ∈ B) (s : Option ℕ) (i : ℕ) (p : Poly n) :
    Decomposes B p (reducePass s sub i p).1 := by
  induction sub generalizing i p with
  | nil => exact decomposes_refl B p
  | cons other rest IH =>
    have h1 : Decomposes B p (passStep (decide (s = some i)) p other).1 :=
      passStep_decomposes (hsub other (by simp)) _ p
    have h2 := IH (fun x hx => hsub x (by simp [hx])) (i + 1)
      (passStep (decide (s = some i)) p other).1
    exact decomposes_trans h1 h2

/-- Across the whole division loop, the working polynomial only ever has
scaled monomial multiples of basis members subtracted from it, plus the
snapped noise. -/
theorem reduceLoop_decomposes (s : Option ℕ) (B : List (Poly n)) :
    ∀ p : Poly n, Decomposes B p (reduceLoop s B p) := by
  have hwf : WellFounded (InvImage ((· < ·) : WithBot (Mono n) → _ → Prop)
      (leadTerm (n := n))) := InvImage.wf _ IsWellFounded.wf
  intro p
  induction p using hwf.induction with
  | _ p IH =>
    by_cases h : (reducePass s B 0 p).2 = true
    · rw [reduceLoop_step h]
      exact decomposes_trans
        (reducePass_decomposes (fun x hx => hx) s 0 p)
        (IH _ (reducePass_true h))
    · rw [reduceLoop_fix (by simpa using h)]
      exact decomposes_refl B p

/-! ## The exit state of the division loop -/

theorem reducePass_false_all {s : Option ℕ} {B : List (Poly n)} {i : ℕ}
    {p : Poly n} (h : (reducePass s B i p).2 = false) :
    ∀ j (hj : j < B.length),
      (passStep (decide (s = some (i + j))) p (B.get ⟨j, hj⟩)).2 = false := by
  induction B generalizing i p with
  | nil =>
    intro j hj
    exact absurd hj (by simp)
  | cons other rest IH =>
    unfold reducePass at h
    dsimp only at h
    rw [Bool.or_eq_false_iff] at h
    obtain ⟨h1, h2⟩ := h
    rw [passStep_false h1] at h2
    intro j hj
    match j with
    | 0 => simpa using h1
    | Nat.succ j2 =>
      have hj2 : j2 < rest.length := by simpa using hj
      have hstep := IH h2 j2 hj2
      have harith : i + 1 + j2 = i + (j2 + 1) := by omega
      rw [harith] at hstep
      exact hstep

/-- At exit, the remainder's leading term is divisible by the leading term
of no basis member that the `other != poly` test does not skip. -/
theorem reduce_no_leadTerm_div (p : Poly n) (B : List (Poly n)) :
    ∀ g ∈ B, ∀ ltr ltg : Mono n,
      leadTerm (reduce p B) = (ltr : WithBot (Mono n)) →
      leadTerm g = (ltg : WithBot (Mono n)) → ¬ Mono.divides ltg ltr := by
  intro g hg ltr ltg hr hlg
  obtain ⟨⟨j, hj⟩, hgj⟩ := List.mem_iff_get.mp hg
  have hterm := reduceLoop_terminates none B p
  have hall := reducePass_false_all hterm j hj
  rw [hgj] at hall
  exact passStep_false_no_div hall hr hlg (by simp)

/-! ## Python error values and tuple-world helpers -/

/-- The Python exceptions surfaced by the embedded methods. -/
inductive PyErr where
  | attributeError : PyErr
  | valueError : PyErr
  | assertionError : PyErr
  | typeError : PyErr
deriving DecidableEq

instance instDecEqExcept {ε α : Type} [DecidableEq ε] [DecidableEq α] :
    DecidableEq (Except ε α) := fun x y =>
  match x, y with
  | Except.ok a, Except.ok b =>
    if h : a = b then isTrue (by rw [h]) else isFalse (by simp [h])
  | Except.error e, Except.error f =>
    if h : e = f then isTrue (by rw [h]) else isFalse (by simp [h])
  | Except.ok _, Except.error _ => isFalse (by simp)
  | Except.error _, Except.ok _ => isFalse (by simp)

/-- A monomial as the Python exponent tuple it is stored as. -/
def ofMono (m : Mono n) : List ℕ := List.ofFn m

/-- An exponent tuple read back as a monomial (tuples of length `n`). -/
def toMono (l : List ℕ) : Mono n := fun i => l.getD i 0

/-- Python `zip(*rows)`: truncates at the shortest input and returns no
rows when there are no inputs. -/
def zipStar (rows : List (List ℕ)) : List (List ℕ) :=
  (List.range (((rows.map List.length).min?).getD 0)).map
    (fun i => rows.map (fun r => r.getD i 0))

/-- `itertools.product(*ranges)` in generation order: the leftmost factor
varies slowest. -/
def prodList : List (List ℕ) → List (List ℕ)
  | [] => [[]]
  | r :: rs => r.flatMap (fun x => (prodList rs).map (fun t => x :: t))

/-- `RootFinder.divides(mon1, mon2)` (lines 120-134):
`all(np.subtract(mon2, mon1) >= 0)`, elementwise integer subtraction of
equal-length exponent tuples followed by a non-negativity test. -/
def dividesL (mon1 mon2 : List ℕ) : Bool :=
  (List.zipWith (fun (d m : ℕ) => decide (0 ≤ (m : ℤ) - (d : ℤ))) mon1
    mon2).all (fun b => b)

/-! ## `makeVectorBasis` (lines 54-80) -/

/-- The body of `makeVectorBasis` on the extracted leading-term tuples:
per-variable candidate ranges `range(max(tup))` over the transposed
leading terms (Python `max` is only ever applied to the rows of the
transpose, which are nonempty whenever the transpose has rows, so it
equals `foldr max 0` there), then the Cartesian product, then the
divisibility filter in generation order. -/
def makeVectorBasisCore (LT_G : List (List ℕ)) : List (List ℕ) :=
  (prodList ((zipStar LT_G).map (fun tup => List.range (tup.foldr max 0)))).filter
    (fun mon => ! LT_G.any (fun lt => dividesL lt mon))

/-- `makeVectorBasis(self, GB)` (lines 54-80).  `LT_G = [f.lead_term for f in GB]`
collects the leading terms; a member with no leading term stores Python
`None`, on which the subsequent `zip(*LT_G)` raises `TypeError`. -/
def makeVectorBasis (GB : List (Poly n)) : Except PyErr (List (List ℕ)) :=
  if ∀ f ∈ GB, leadTerm f ≠ ⊥ then
    Except.ok (makeVectorBasisCore (GB.map (fun f => ofMono (ltDefault f))))
  else Except.error PyErr.typeError

/-! ## `coordinateVector` (lines 95-118) -/

/-- `MultiPower.monomialList()`, modelled from the spec: the monomials of
the polynomial enumerated in decreasing term order. -/
def monomialList (p : Poly n) : List (Mono n) :=
  (p.support.sort (· ≤ ·)).reverse

/-- Python `list.index(value)`: the first index holding `value`, or
`ValueError` when the value is absent. -/
def pyIndex (l : List ℕ) : List (List ℕ) → Except PyErr ℕ
  | [] => Except.error PyErr.valueError
  | x :: xs =>
    if x = l then Except.ok 0
    else Except.map (fun i => i + 1) (pyIndex l xs)

/-- The `for monomial in reducedPolyTerms` loop of `coordinateVector`
(lines 114-116): place each coefficient at the monomial's position in the
vector basis; a monomial absent from the basis raises `ValueError` from
`self.vectorBasis.index(monomial)`. -/
def setCoords (vb : List (List ℕ)) (p : Poly n) :
    List (Mono n) → List ℚ → Except PyErr (List ℚ)
  | [], acc => Except.ok acc
  | m :: rest, acc =>
    match pyIndex (ofMono m) vb with
    | Except.ok i => setCoords vb p rest (acc.set i (p m))
    | Except.error e => Except.error e

/-- `coordinateVector(self, reducedPoly)` (lines 95-118): reverse the
decreasing monomial list, `assert` that there are no more terms than the
vector-space dimension, then fill a zero vector of length the dimension. -/
def coordinateVector (vb : List (List ℕ)) (p : Poly n) :
    Except PyErr (List ℚ) :=
  if (monomialList p).reverse.length ≤ vb.length then
    setCoords vb p (monomialList p).reverse (List.replicate vb.length 0)
  else Except.error PyErr.assertionError

/-! ## `getRemainder` (lines 173-185) and `multOperatorMatrix` (lines 82-93) -/

/-- `getRemainder(self, poly)`: delegates to the Groebner collaborator's
`reduce_poly(poly, self.GB)`.  Modelled from the spec: `groebner_class.py`
is not under `src/`; its division routine is the one specified in §4.3 of
the spec and mirrored verbatim by lines 141-171 of `root_finder.py`, here
applied to a freshly constructed product polynomial. -/
def getRemainder (GB : List (Poly n)) (p : Poly n) : Poly n := reduce p GB

/-- The `for i in range(dim)` loop of `multOperatorMatrix`, building one
column per basis monomial; an exception from a column aborts the call. -/
def exceptMapCols (f : List ℕ → Except PyErr (List ℚ)) :
    List (List ℕ) → Except PyErr (List (List ℚ))
  | [] => Except.ok []
  | mon :: rest => do
    let c ← f mon
    let cs ← exceptMapCols f rest
    Except.ok (c :: cs)

/-- `multOperatorMatrix(self, poly)` (lines 82-93): for each basis monomial
`vectorBasis[i]`, multiply (`mon_mult`), reduce (`getRemainder`) and take
the coordinate vector as column `i`.  The matrix is represented as the
list of its columns (`multOperatorMatrix[:,i] = columns[i]`). -/
def multOperatorMatrix (GB : List (Poly n)) (vb : List (List ℕ))
    (p : Poly n) : Except PyErr (List (List ℚ)) :=
  exceptMapCols
    (fun mon => coordinateVector vb (getRemainder GB (monMult (toMono mon) p)))
    vb

/-! ## The `RootFinder` attribute model (`__init__`, lines 35-52) -/

/-- Values stored in `RootFinder` instance attributes. -/
inductive RFVal (n : ℕ) where
  | groebnerObj : List (Poly n) → RFVal n
  | polyList : List (Poly n) → RFVal n
  | monoList : List (List ℕ) → RFVal n
  | natVal : ℕ → RFVal n

/-- The attribute dictionary written by `__init__(self, G)` for a plain
list `G`: exactly `Groebner`, `GB`, `vectorBasis` and
`vectorSpaceDimension` are assigned (lines 44-52); no other method of the
class assigns any attribute. -/
def rootFinderInit (GB : List (Poly n)) :
    Except PyErr (List (String × RFVal n)) := do
  let vb ← makeVectorBasis GB
  Except.ok [("Groebner", RFVal.groebnerObj GB), ("GB", RFVal.polyList GB),
    ("vectorBasis", RFVal.monoList vb),
    ("vectorSpaceDimension", RFVal.natVal vb.length)]

/-- Python attribute lookup: `AttributeError` when the attribute was never
assigned on the instance. -/
def getAttr (attrs : List (String × RFVal n)) (name : String) :
    Except PyErr (RFVal n) :=
  match attrs.lookup name with
  | some v => Except.ok v
  | none => Except.error PyErr.attributeError

/-- `RootFinder.reduce_poly(self, poly)` (lines 136-171): the first action
of the `while` body is the iteration over `self.old_polys` (line 144),
i.e. an attribute lookup; only if it succeeds with a list of polynomials
does any elimination run. -/
def rootFinderReducePoly (attrs : List (String × RFVal n)) (p : Poly n) :
    Except PyErr (Poly n) := do
  let v ← getAttr attrs "old_polys"
  match v with
  | RFVal.polyList l => Except.ok (reduce p l)
  | _ => Except.error PyErr.typeError

/-! ## Concrete instances used in the claim theorems -/

/-- The `MultiPower` polynomial `c * x^m`: a coefficient array with the
single nonzero entry `c` at exponent tuple `m`. -/
def polySingle (m : Mono n) (c : ℚ) : Poly n where
  support := if c = 0 then ∅ else {m}
  toFun x := if x = m then c else 0
  mem_support_toFun x := by
    by_cases hc : c = 0
    · simp [hc]
    · by_cases hx : x = m <;> simp [hc, hx]

/-- `x` in one variable. -/
def exX1 : Poly 1 := polySingle (toMono [1]) 1

/-- `x^2` in one variable. -/
def exX1sq : Poly 1 := polySingle (toMono [2]) 1

/-- `x^2` in two variables. -/
def exX2 : Poly 2 := polySingle (toMono [2, 0]) 1

/-- `y^2` in two variables. -/
def exY2 : Poly 2 := polySingle (toMono [0, 2]) 1

/-- `x y` in two variables. -/
def exXY : Poly 2 := polySingle (toMono [1, 1]) 1

/-- `y^3` in two variables. -/
def exY3 : Poly 2 := polySingle (toMono [0, 3]) 1

/-- `x y^2` in two variables. -/
def exXY2 : Poly 2 := polySingle (toMono [1, 2]) 1

/-- `x` in two variables. -/
def exXvar : Poly 2 := polySingle (toMono [1, 0]) 1

/-- `x^2 + x y` in two variables. -/
def exC1Poly : Poly 2 := polyAdd exX2 exXY

/-- `x y + y^3` in two variables. -/
def exC9Poly : Poly 2 := polyAdd exXY exY3

/-- The monomial Groebner basis `[x^2, y^3, x y^2]` of a zero-dimensional
ideal. -/
def exGB9 : List (Poly 2) := [exX2, exY3, exXY2]

/-- The vector basis computed by `makeVectorBasis` for `exGB9`. -/
def exVB9 : List (List ℕ) := [[0, 0], [0, 1], [0, 2], [1, 0], [1, 1]]

/-- The attribute dictionary produced by `__init__` on the empty basis. -/
def c4ExAttrs : List (String × RFVal 2) :=
  [("Groebner", RFVal.groebnerObj []), ("GB", RFVal.polyList []),
    ("vectorBasis", RFVal.monoList [[]]),
    ("vectorSpaceDimension", RFVal.natVal 1)]

/-- The per-variable candidate bound in the words of the spec: the maximum
of the variable's exponent over all leading terms. -/
def maxExpVar (GB : List (Poly n)) (i : Fin n) : ℕ :=
  (GB.map (fun g => ltDefault g i)).foldr max 0

/-! ## Lemmas about `pyIndex` and `setCoords` -/

theorem toMono_ofMono (m : Mono n) : toMono (ofMono m) = m := by
  funext k
  have hk : (k : ℕ) < (List.ofFn m).length := by simp [k.isLt]
  show (List.ofFn m).getD k 0 = m k
  rw [List.getD_eq_getElem (List.ofFn m) 0 hk]
  simp

theorem ofMono_toMono {l : List ℕ} (hl : l.length = n) :
    ofMono (toMono l : Mono n) = l := by
  have hlen2 : (ofMono (toMono l : Mono n)).length = l.length := by
    simp [ofMono, hl]
  apply List.ext_get hlen2
  intro i h1 h2
  show (List.ofFn (toMono l : Mono n)).get ⟨i, h1⟩ = l.get ⟨i, h2⟩
  rw [List.get_ofFn]
  show l.getD i 0 = l.get ⟨i, h2⟩
  rw [List.getD_eq_getElem l 0 h2]
  rw [List.get_eq_getElem]

theorem toMono_injective {a b : List ℕ} (ha : a.length = n)
    (hb : b.length = n) (h : (toMono a : Mono n) = toMono b) : a = b := by
  rw [← ofMono_toMono (n := n) ha, ← ofMono_toMono (n := n) hb, h]

theorem pyIndex_ok {l : List ℕ} : ∀ {vb : List (List ℕ)} {i : ℕ},
    pyIndex l vb = Except.ok i → ∃ hi : i < vb.length, vb.get ⟨i, hi⟩ = l := by
  intro vb
  induction vb with
  | nil =>
    intro i h
    exact absurd h (by simp [pyIndex])
  | cons x xs IH =>
    intro i h
    unfold pyIndex at h
    by_cases hx : x = l
    · rw [if_pos hx] at h
      have h0 : (0 : ℕ) = i := by injection h
      subst h0
      exact ⟨by simp, hx⟩
    · rw [if_neg hx] at h
      rcases hrec : pyIndex l xs with e | j
      · rw [hrec] at h
        exact absurd h (by simp [Except.map])
      · rw [hrec] at h
        have h1 : j + 1 = i := by
          have h2 : Except.ok (ε := PyErr) (j + 1) = Except.ok i := h
          injection h2
        subst h1
        obtain ⟨hj, hget⟩ := IH hrec
        exact ⟨by simpa using hj, by simpa using hget⟩

theorem pyIndex_get : ∀ {vb : List (List ℕ)}, vb.Nodup →
    ∀ {j : ℕ} (hj : j < vb.length), pyIndex (vb.get ⟨j, hj⟩) vb = Except.ok j := by
  intro vb
  induction vb with
  | nil =>
    intro _ j hj
    exact absurd hj (by simp)
  | cons x xs IH =>
    intro hnd j hj
    match j with
    | 0 => simp [pyIndex]
    | Nat.succ j2 =>
      have hj2 : j2 < xs.length := by simpa using hj
      have hget : (x :: xs).get ⟨j2 + 1, hj⟩ = xs.get ⟨j2, hj2⟩ := rfl
      rw [hget]
      unfold pyIndex
      rw [if_neg, IH (List.Nodup.of_cons hnd) hj2]
      · rfl
      · intro hc
        have hxm : x ∈ xs := by
          rw [hc]
          exact List.get_mem xs j2 hj2
        exact (List.nodup_cons.mp hnd).1 hxm

theorem pyIndex_err {l : List ℕ} : ∀ {vb : List (List ℕ)},
    l ∉ vb → pyIndex l vb = Except.error PyErr.valueError := by
  intro vb
  induction vb with
  | nil => intro _; rfl
  | cons x xs IH =>
    intro hmem
    unfold pyIndex
    rw [if_neg (fun hc : x = l => hmem (hc ▸ List.mem_cons_self x xs))]
    rw [IH (fun hc => hmem (List.mem_cons_of_mem x hc))]
    rfl

theorem pyIndex_mem {l : List ℕ} : ∀ {vb : List (List ℕ)},
    l ∈ vb → ∃ i, pyIndex l vb = Except.ok i := by
  intro vb
  induction vb with
  | nil => intro h; exact absurd h (by simp)
  | cons x xs IH =>
    intro hmem
    unfold pyIndex
    by_cases hx : x = l
    · exact ⟨0, by rw [if_pos hx]⟩
    · have hxs : l ∈ xs := by
        rcases List.mem_cons.mp hmem with h | h
        · exact absurd h.symm hx
        · exact h
      obtain ⟨i, hi⟩ := IH hxs
      exact ⟨i + 1, by rw [if_neg hx, hi]; rfl⟩

theorem getD_set_ne {α : Type} {d : α} {l : List α} : ∀ {i j : ℕ} {x : α},
    i ≠ j → (l.set i x).getD j d = l.getD j d := by
  induction l with
  | nil => intro i j x _; simp
  | cons a as IH =>
    intro i j x hij
    match i, j with
    | 0, 0 => exact absurd rfl hij
    | 0, Nat.succ j2 => simp [List.set]
    | Nat.succ i2, 0 => simp [List.set]
    | Nat.succ i2, Nat.succ j2 =>
      have h2 : i2 ≠ j2 := fun hc => hij (by rw [hc])
      simpa [List.set] using IH h2

theorem getD_set_self {α : Type} {d : α} {l : List α} : ∀ {i : ℕ} {x : α},
    i < l.length → (l.set i x).getD i d = x := by
  induction l with
  | nil => intro i x hi; exact absurd hi (by simp)
  | cons a as IH =>
    intro i x hi
    match i with
    | 0 => rfl
    | Nat.succ i2 =>
      have h2 : i2 < as.length := by simpa using hi
      simpa [List.set] using IH h2

theorem setCoords_length {vb : List (List ℕ)} {p : Poly n} :
    ∀ {terms : List (Mono n)} {acc out : List ℚ},
      setCoords vb p terms acc = Except.ok out → out.length = acc.length := by
  intro terms
  induction terms with
  | nil =>
    intro acc out h
    have h2 : acc = out := by
      have h3 : Except.ok (ε := PyErr) acc = Except.ok out := h
      injection h3
    rw [← h2]
  | cons m rest IH =>
    intro acc out h
    unfold setCoords at h
    rcases hidx : pyIndex (ofMono m) vb with e | i
    · rw [hidx] at h
      exact absurd h (by simp)
    · rw [hidx] at h
      have h2 := IH h
      rw [h2, List.length_set]

/-- The write loop of `coordinateVector`: when every monomial lies in the
(duplicate-free) vector basis, it succeeds and each basis position holds
the coefficient of its monomial — the coefficient written verbatim for
monomials of the list, the accumulator value elsewhere. -/
theorem setCoords_ok {vb : List (List ℕ)} {p : Poly n} (hnd : vb.Nodup) :
    ∀ (terms : List (Mono n)) (acc : List ℚ), acc.length = vb.length →
      (∀ m ∈ terms, ofMono m ∈ vb) →
      ∃ out, setCoords vb p terms acc = Except.ok out ∧
        out.length = vb.length ∧
        ∀ j (hj : j < vb.length),
          out.getD j 0 =
            if ∃ m ∈ terms, ofMono m = vb.get ⟨j, hj⟩
            then p (toMono (vb.get ⟨j, hj⟩)) else acc.getD j 0 := by
  intro terms
  induction terms with
  | nil =>
    intro acc hacc _
    refine ⟨acc, rfl, hacc, fun j hj => ?_⟩
    rw [if_neg]
    rintro ⟨m, hm, -⟩
    exact absurd hm (List.not_mem_nil m)
  | cons m rest IH =>
    intro acc hacc hmem
    have hmvb : ofMono m ∈ vb := hmem m (List.mem_cons_self m rest)
    obtain ⟨i, hi⟩ := pyIndex_mem hmvb
    obtain ⟨hilen, higet⟩ := pyIndex_ok hi
    obtain ⟨out, hout, houtlen, houtval⟩ := IH (acc.set i (p m))
      (by rw [List.length_set]; exact hacc)
      (fun m2 hm2 => hmem m2 (List.mem_cons_of_mem m hm2))
    refine ⟨out, ?_, houtlen, ?_⟩
    · unfold setCoords
      rw [hi]
      exact hout
    · intro j hj
      rw [houtval j hj]
      by_cases hrest : ∃ m2 ∈ rest, ofMono m2 = vb.get ⟨j, hj⟩
      · rw [if_pos hrest, if_pos]
        obtain ⟨m2, hm2, hm2eq⟩ := hrest
        exact ⟨m2, List.mem_cons_of_mem m hm2, hm2eq⟩
      · rw [if_neg hrest]
        by_cases hhead : ofMono m = vb.get ⟨j, hj⟩
        · rw [if_pos ⟨m, List.mem_cons_self m rest, hhead⟩]
          have hij : i = j := by
            by_contra hij
            have hji : pyIndex (vb.get ⟨j, hj⟩) vb = Except.ok j :=
              pyIndex_get hnd hj
            rw [← hhead, hi] at hji
            have : i = j := by injection hji
            exact hij this
          subst hij
          rw [getD_set_self (hacc ▸ hj)]
          have hm2 : toMono (vb.get ⟨i, hj⟩) = m := by
            rw [← hhead, toMono_ofMono]
          rw [hm2]
        · rw [if_neg]
          · have hij : i ≠ j := by
              intro hc
              subst hc
              exact hhead higet.symm
            exact getD_set_ne hij
          · rintro ⟨m2, hm2, hm2eq⟩
            rcases List.mem_cons.mp hm2 with h | h
            · exact hhead (h ▸ hm2eq)
            · exact hrest ⟨m2, h, hm2eq⟩

/-! ## Lemmas about `coordinateVector`, `reduce` on irreducible input,
and the column loop -/

theorem mem_monomialList_rev {p : Poly n} {m : Mono n} :
    m ∈ (monomialList p).reverse ↔ m ∈ p.support := by
  rw [List.mem_reverse]
  unfold monomialList
  rw [List.mem_reverse, Finset.mem_sort]

theorem monomialList_rev_length {p : Poly n} :
    (monomialList p).reverse.length = p.support.card := by
  rw [List.length_reverse]
  unfold monomialList
  rw [List.length_reverse, Finset.length_sort]

theorem ofMono_injective : Function.Injective (ofMono (n := n)) := by
  intro a b h
  rw [← toMono_ofMono a, ← toMono_ofMono b, h]

theorem support_card_le_of_mem {p : Poly n} {vb : List (List ℕ)}
    (hmem : ∀ m ∈ p.support, ofMono m ∈ vb) :
    p.support.card ≤ vb.length := by
  have h1 : p.support.card = (p.support.image (ofMono (n := n))).card :=
    (Finset.card_image_of_injective _ ofMono_injective).symm
  have h2 : p.support.image (ofMono (n := n)) ⊆ vb.toFinset := by
    intro l hl
    obtain ⟨m, hm, hml⟩ := Finset.mem_image.mp hl
    rw [← hml, List.mem_toFinset]
    exact hmem m hm
  calc p.support.card = (p.support.image (ofMono (n := n))).card := h1
    _ ≤ vb.toFinset.card := Finset.card_le_card h2
    _ ≤ vb.length := vb.toFinset_card_le

theorem coordinateVector_len {vb : List (List ℕ)} {p : Poly n} {w : List ℚ}
    (h : coordinateVector vb p = Except.ok w) : w.length = vb.length := by
  unfold coordinateVector at h
  by_cases hg : (monomialList p).reverse.length ≤ vb.length
  · rw [if_pos hg] at h
    rw [setCoords_length h, List.length_replicate]
  · rw [if_neg hg] at h
    exact absurd h (by simp)

/-- `coordinateVector` on a polynomial all of whose monomials lie in the
vector basis: the coefficients are copied verbatim into their basis
positions, all other entries are zero. -/
theorem coordinateVector_ok {vb : List (List ℕ)} (hnd : vb.Nodup)
    (hlen : ∀ l ∈ vb, l.length = n) {p : Poly n}
    (hmem : ∀ m ∈ p.support, ofMono m ∈ vb) :
    ∃ w, coordinateVector vb p = Except.ok w ∧ w.length = vb.length ∧
      ∀ j (hj : j < vb.length),
        w.getD j 0 = p (toMono (vb.get ⟨j, hj⟩)) := by
  have hguard : (monomialList p).reverse.length ≤ vb.length := by
    rw [monomialList_rev_length]
    exact support_card_le_of_mem hmem
  obtain ⟨out, hout, hlen2, hval⟩ := setCoords_ok hnd (monomialList p).reverse
    (List.replicate vb.length 0) (by rw [List.length_replicate])
    (fun m hm => hmem m (mem_monomialList_rev.mp hm))
  refine ⟨out, ?_, hlen2, fun j hj => ?_⟩
  · unfold coordinateVector
    rw [if_pos hguard]
    exact hout
  · rw [hval j hj]
    by_cases hex : ∃ m ∈ (monomialList p).reverse, ofMono m = vb.get ⟨j, hj⟩
    · rw [if_pos hex]
    · rw [if_neg hex]
      have hz : p (toMono (vb.get ⟨j, hj⟩)) = 0 := by
        by_contra hc
        apply hex
        refine ⟨toMono (vb.get ⟨j, hj⟩),
          mem_monomialList_rev.mpr (Finsupp.mem_support_iff.mpr hc), ?_⟩
        exact ofMono_toMono (hlen _ (List.get_mem vb j hj))
      rw [hz]
      simp

theorem setCoords_err {vb : List (List ℕ)} {p : Poly n} :
    ∀ {terms : List (Mono n)} {acc : List ℚ},
      (∃ m ∈ terms, ofMono m ∉ vb) →
      setCoords vb p terms acc = Except.error PyErr.valueError := by
  intro terms
  induction terms with
  | nil =>
    rintro acc ⟨m, hm, -⟩
    exact absurd hm (by simp)
  | cons m rest IH =>
    rintro acc ⟨m2, hm2, hm2nb⟩
    unfold setCoords
    by_cases hm : ofMono m ∈ vb
    · obtain ⟨i, hi⟩ := pyIndex_mem hm
      rw [hi]
      apply IH
      rcases List.mem_cons.mp hm2 with h | h
      · rw [h] at hm2nb
        exact absurd hm hm2nb
      · exact ⟨m2, h, hm2nb⟩
    · rw [pyIndex_err hm]

theorem coordinateVector_err {vb : List (List ℕ)} {p : Poly n}
    (hbad : ∃ m ∈ p.support, ofMono m ∉ vb) :
    ∃ e, coordinateVector vb p = Except.error e := by
  unfold coordinateVector
  by_cases hg : (monomialList p).reverse.length ≤ vb.length
  · rw [if_pos hg]
    obtain ⟨m, hm, hnb⟩ := hbad
    exact ⟨PyErr.valueError, setCoords_err ⟨m, mem_monomialList_rev.mpr hm, hnb⟩⟩
  · rw [if_neg hg]
    exact ⟨PyErr.assertionError, rfl⟩

theorem reducePass_noop {s : Option ℕ} {p : Poly n} :
    ∀ {sub : List (Poly n)} {i : ℕ},
      (∀ g ∈ sub, ∀ ltg ltp : Mono n,
        leadTerm g = (ltg : WithBot (Mono n)) →
        leadTerm p = (ltp : WithBot (Mono n)) → ¬ Mono.divides ltg ltp) →
      reducePass s sub i p = (p, false) := by
  intro sub
  induction sub with
  | nil => intro i _; rfl
  | cons other rest IH =>
    intro i h
    have hstep : passStep (decide (s = some i)) p other = (p, false) := by
      unfold passStep
      rw [if_neg]
      rintro ⟨hp, ho, -, hdiv⟩
      obtain ⟨ltp, hltp⟩ := WithBot.ne_bot_iff_exists.mp hp
      obtain ⟨ltg, hltg⟩ := WithBot.ne_bot_iff_exists.mp ho
      rw [ltDefault_eq hltg.symm, ltDefault_eq hltp.symm] at hdiv
      exact h other (List.mem_cons_self other rest) ltg ltp hltg.symm
        hltp.symm hdiv
    unfold reducePass
    rw [hstep, IH (fun g hg => h g (List.mem_cons_of_mem other hg))]
    rfl

/-- When no basis leading term divides the argument's leading term, the
division loop exits at once and returns the argument unchanged. -/
theorem reduce_eq_self_of_irreducible {p : Poly n} {B : List (Poly n)}
    (h : ∀ g ∈ B, ∀ ltg ltp : Mono n,
      leadTerm g = (ltg : WithBot (Mono n)) →
      leadTerm p = (ltp : WithBot (Mono n)) → ¬ Mono.divides ltg ltp) :
    reduce p B = p := by
  show reduceLoop none B p = p
  apply reduceLoop_fix
  rw [reducePass_noop h]

theorem polySingle_apply (m : Mono n) (c : ℚ) (x : Mono n) :
    polySingle m c x = if x = m then c else 0 := rfl

theorem support_polySingle (m : Mono n) {c : ℚ} (hc : c ≠ 0) :
    (polySingle m c).support = {m} := by
  show (if c = 0 then (∅ : Finset (Mono n)) else {m}) = {m}
  rw [if_neg hc]

theorem leadTerm_polySingle (m : Mono n) {c : ℚ} (hc : c ≠ 0) :
    leadTerm (polySingle m c) = (m : WithBot (Mono n)) := by
  unfold leadTerm
  rw [support_polySingle m hc]
  exact Finset.max_singleton

theorem exceptMapCols_ok {f : List ℕ → Except PyErr (List ℚ)} :
    ∀ {L : List (List ℕ)},
      (∀ mon ∈ L, ∃ c, f mon = Except.ok c) →
      ∃ M, exceptMapCols f L = Except.ok M ∧ M.length = L.length ∧
        ∀ j (hj : j < L.length),
          f (L.get ⟨j, hj⟩) = Except.ok (M.getD j []) := by
  intro L
  induction L with
  | nil =>
    intro _
    exact ⟨[], rfl, rfl, fun j hj => absurd hj (by simp)⟩
  | cons mon rest IH =>
    intro h
    obtain ⟨c, hc⟩ := h mon (List.mem_cons_self mon rest)
    obtain ⟨M, hM, hMlen, hMval⟩ :=
      IH (fun m2 hm2 => h m2 (List.mem_cons_of_mem mon hm2))
    refine ⟨c :: M, ?_, by simpa using hMlen, fun j hj => ?_⟩
    · unfold exceptMapCols
      rw [hc, hM]
      rfl
    · match j with
      | 0 => exact hc
      | Nat.succ j2 =>
        have hj2 : j2 < rest.length := by simpa using hj
        exact hMval j2 hj2

/-! ## Lemmas about `makeVectorBasis` -/

theorem getD_ofMono {m : Mono n} {i : ℕ} (hi : i < n) :
    (ofMono m).getD i 0 = m ⟨i, hi⟩ := by
  have h1 : i < (List.ofFn m).length := by simpa using hi
  show (List.ofFn m).getD i 0 = m ⟨i, hi⟩
  rw [List.getD_eq_getElem (List.ofFn m) 0 h1, List.getElem_ofFn]

theorem foldl_min_const {k : ℕ} : ∀ {L : List ℕ}, (∀ x ∈ L, x = k) →
    L.foldl min k = k := by
  intro L
  induction L with
  | nil => intro _; rfl
  | cons a as IH =>
    intro h
    have ha : a = k := h a (List.mem_cons_self a as)
    show as.foldl min (min k a) = k
    rw [ha, min_self]
    exact IH (fun x hx => h x (List.mem_cons_of_mem a hx))

theorem min?_const {k : ℕ} : ∀ {L : List ℕ}, L ≠ [] →
    (∀ x ∈ L, x = k) → L.min? = some k := by
  intro L
  match L with
  | [] => intro h _; exact absurd rfl h
  | a :: as =>
    intro _ h
    show some (as.foldl min a) = some k
    have ha : a = k := h a (List.mem_cons_self a as)
    rw [ha, foldl_min_const (fun x hx => h x (List.mem_cons_of_mem a hx))]

theorem zipStar_const_len {L : List (List ℕ)} (hne : L ≠ [])
    (hlen : ∀ l ∈ L, l.length = n) :
    zipStar L = (List.range n).map (fun i => L.map (fun r => r.getD i 0)) := by
  unfold zipStar
  have h1 : (L.map List.length).min? = some n := by
    apply min?_const
    · simpa using hne
    · intro x hx
      obtain ⟨l, hl, hlx⟩ := List.mem_map.mp hx
      rw [← hlx]
      exact hlen l hl
  rw [h1]
  rfl

theorem mem_prodList : ∀ {rs : List (List ℕ)} {t : List ℕ},
    t ∈ prodList rs ↔ List.Forall₂ (fun x r => x ∈ r) t rs := by
  intro rs
  induction rs with
  | nil =>
    intro t
    show t ∈ [[]] ↔ _
    constructor
    · intro h
      have ht : t = [] := by simpa using h
      rw [ht]
      exact List.Forall₂.nil
    · intro h
      cases h
      simp
  | cons r rs2 IH =>
    intro t
    show t ∈ r.flatMap _ ↔ _
    rw [List.mem_flatMap]
    constructor
    · rintro ⟨x, hx, ht⟩
      obtain ⟨t2, ht2, htt⟩ := List.mem_map.mp ht
      rw [← htt]
      exact List.Forall₂.cons hx (IH.mp ht2)
    · intro h
      cases h with
      | cons h1 h2 =>
        exact ⟨_, h1, List.mem_map.mpr ⟨_, IH.mpr h2, rfl⟩⟩

theorem dividesL_iff : ∀ {d m : List ℕ},
    dividesL d m = true ↔
      ∀ j, j < min d.length m.length → d.getD j 0 ≤ m.getD j 0 := by
  intro d
  induction d with
  | nil =>
    intro m
    constructor
    · intro _ j hj
      exact absurd hj (by simp)
    · intro _
      rfl
  | cons a d2 IH =>
    intro m
    match m with
    | [] =>
      constructor
      · intro _ j hj
        exact absurd hj (by simp)
      · intro _
        rfl
    | b :: m2 =>
      unfold dividesL
      rw [List.zipWith_cons_cons, List.all_cons, Bool.and_eq_true]
      constructor
      · rintro ⟨h1, h2⟩ j hj
        match j with
        | 0 =>
          have h3 : (0 : ℤ) ≤ (b : ℤ) - (a : ℤ) := of_decide_eq_true h1
          have h4 : a ≤ b := by omega
          simpa using h4
        | Nat.succ j2 =>
          have hj2 : j2 < min d2.length m2.length := by
            simp only [List.length_cons] at hj
            omega
          have h5 := IH.mp h2 j2 hj2
          simpa using h5
      · intro h
        constructor
        · apply decide_eq_true
          have h6 := h 0 (by simp)
          simp only [List.getD_cons_zero] at h6
          omega
        · apply IH.mpr
          intro j hj
          have h7 := h (j + 1) (by
            simp only [List.length_cons]
            omega)
          simpa using h7

theorem dividesL_iff_divides {d : Mono n} {m : List ℕ} (hm : m.length = n) :
    dividesL (ofMono d) m = true ↔ Mono.divides d (toMono m) := by
  rw [dividesL_iff]
  have hlen : min (ofMono d).length m.length = n := by
    simp [ofMono, hm]
  rw [hlen]
  constructor
  · intro h i
    have h2 := h i i.isLt
    rw [getD_ofMono i.isLt] at h2
    exact h2
  · intro h j hj
    rw [getD_ofMono hj]
    exact h ⟨j, hj⟩

/-- Membership characterization of the basis computed by
`makeVectorBasisCore`: exactly the exponent tuples of the candidate box
(every exponent strictly below the per-variable maximum over the leading
terms) that are divisible by no leading term. -/
theorem makeVectorBasisCore_mem {GB : List (Poly n)} (hne : GB ≠ [])
    (m : List ℕ) :
    m ∈ makeVectorBasisCore (GB.map (fun f => ofMono (ltDefault f))) ↔
      (m.length = n ∧ ∀ i : Fin n, m.getD i 0 < maxExpVar GB i) ∧
      ∀ g ∈ GB, ¬ Mono.divides (ltDefault g) (toMono m) := by
  set LT : List (List ℕ) := GB.map (fun f => ofMono (ltDefault f)) with hLT
  have hLTne : LT ≠ [] := by simpa [hLT] using hne
  have hLTlen : ∀ l ∈ LT, l.length = n := by
    intro l hl
    obtain ⟨g, hg, hgl⟩ := List.mem_map.mp hl
    rw [← hgl]
    exact List.length_ofFn _
  have hbound : ∀ (i : ℕ) (hi : i < n),
      ((LT.map (fun r => r.getD i 0)).foldr max 0) = maxExpVar GB ⟨i, hi⟩ := by
    intro i hi
    rw [hLT, List.map_map]
    unfold maxExpVar
    congr 1
    apply List.map_congr_left
    intro g _
    exact getD_ofMono hi
  have hLTmem : ∀ g ∈ GB, ofMono (ltDefault g) ∈ LT := by
    intro g hg
    rw [hLT]
    exact List.mem_map.mpr ⟨g, hg, rfl⟩
  unfold makeVectorBasisCore
  rw [List.mem_filter, zipStar_const_len hLTne hLTlen, List.map_map]
  constructor
  · rintro ⟨hbox, hdiv⟩
    obtain ⟨hlen2, hget⟩ := List.forall₂_iff_get.mp (mem_prodList.mp hbox)
    have hmlen : m.length = n := by simpa using hlen2
    have hmlen2 : ∀ i : Fin n, (i : ℕ) < m.length := by
      intro i
      rw [hmlen]
      exact i.isLt
    refine ⟨⟨hmlen, fun i => ?_⟩, fun g hg hdivg => ?_⟩
    · have h3 := hget i (hmlen2 i) (by simpa using i.isLt)
      simp only [List.get_eq_getElem, List.getElem_map, List.getElem_range,
        Function.comp] at h3
      rw [List.mem_range, hbound i i.isLt] at h3
      rw [List.getD_eq_getElem m 0 (hmlen2 i)]
      simpa using h3
    · have h4 : dividesL (ofMono (ltDefault g)) m = true :=
        (dividesL_iff_divides hmlen).mpr hdivg
      rw [Bool.not_eq_true'] at hdiv
      rw [← Bool.not_eq_true, List.any_eq_true] at hdiv
      exact hdiv ⟨ofMono (ltDefault g), hLTmem g hg, h4⟩
  · rintro ⟨⟨hmlen, hbounds⟩, hnodiv⟩
    have hmlen2 : ∀ i : Fin n, (i : ℕ) < m.length := by
      intro i
      rw [hmlen]
      exact i.isLt
    constructor
    · apply mem_prodList.mpr
      apply List.forall₂_of_length_eq_of_get
      · simpa using hmlen
      · intro i h1 h2
        have hin : i < n := by simpa using h2
        simp only [List.get_eq_getElem, List.getElem_map, List.getElem_range,
          Function.comp]
        rw [List.mem_range, hbound i hin]
        have h5 := hbounds ⟨i, hin⟩
        rw [List.getD_eq_getElem m 0 h1] at h5
        exact h5
    · rw [Bool.not_eq_true']
      rw [← Bool.not_eq_true, List.any_eq_true]
      rintro ⟨lt, hlt, htrue⟩
      obtain ⟨g, hg, hgl⟩ := List.mem_map.mp (hLT ▸ hlt)
      rw [← hgl] at htrue
      exact hnodiv g hg ((dividesL_iff_divides hmlen).mp htrue)

/-- An extra example polynomial: `y` in two variables. -/
def exYvar : Poly 2 := polySingle (toMono [0, 1]) 1

/-- An extra example polynomial: the constant `1` in two variables. -/
def exOne : Poly 2 := polySingle (toMono [0, 0]) 1

/-! ## The claims -/

/-- C1 (counterexample): for `poly = x^2 + x y` and basis `[x y]`, the
remainder returned by the division loop is `x^2 + x y` itself, which
contains the monomial `x y` — divisible by the basis leading term `x y`.
The claim "the remainder contains no monomial divisible by the leading
term of any basis polynomial" is therefore false on the code: the loop
only ever rewrites the leading term. -/
theorem c1_counterexample :
    ¬ (∀ x ∈ (reduce exC1Poly [exXY]).support, ∀ g ∈ [exXY],
        ∀ ltg : Mono 2, leadTerm g = (ltg : WithBot (Mono 2)) →
          ¬ Mono.divides ltg x) := by
  intro hclaim
  have hred : reduce exC1Poly [exXY] = exC1Poly := by
    show reduceLoop none [exXY] exC1Poly = exC1Poly
    exact reduceLoop_fix (of_decide_eq_true (by with_unfolding_all rfl))
  have hmem : (toMono [1, 1] : Mono 2) ∈ (reduce exC1Poly [exXY]).support := by
    rw [hred]
    exact of_decide_eq_true (by with_unfolding_all rfl)
  exact hclaim (toMono [1, 1]) hmem exXY (List.mem_cons_self exXY [])
    (toMono [1, 1]) (of_decide_eq_true (by with_unfolding_all rfl))
    (of_decide_eq_true (by with_unfolding_all rfl))

/-- C1 (amended): what the division loop does guarantee.  The remainder's
leading term is divisible by the leading term of no basis member, and the
input polynomial decomposes as a sum of scaled monomial multiples of basis
members (an element of the ideal generated by the basis), plus finitely
many snapped noise polynomials — each with every coefficient below the
`1e-10` tolerance — plus the remainder.  When no snapping occurs the
difference `poly - remainder` lies exactly in the ideal; lower-order
monomials of the remainder may still be divisible by basis leading
terms (see the counterexample). -/
theorem c1_theorem (p : Poly n) (B : List (Poly n)) :
    (∀ g ∈ B, ∀ ltr ltg : Mono n,
      leadTerm (reduce p B) = (ltr : WithBot (Mono n)) →
      leadTerm g = (ltg : WithBot (Mono n)) →
      ¬ Mono.divides ltg ltr) ∧
    Decomposes B p (reduce p B) := by
  constructor
  · intro g hg ltr ltg hr hlg
    exact reduce_no_leadTerm_div p B g hg ltr ltg hr hlg
  · exact reduceLoop_decomposes none B p

/-- C1 (witness): the amended contract at the concrete input
`poly = x^2, basis = [x]`. -/
theorem c1_witness :
    (∀ g ∈ [exX1], ∀ ltr ltg : Mono 1,
      leadTerm (reduce exX1sq [exX1]) = (ltr : WithBot (Mono 1)) →
      leadTerm g = (ltg : WithBot (Mono 1)) →
      ¬ Mono.divides ltg ltr) ∧
    Decomposes [exX1] exX1sq (reduce exX1sq [exX1]) :=
  c1_theorem exX1sq [exX1]

/-- C2 (counterexample): `x` is a member of the Groebner basis `[x]`, yet
reducing it against that basis does not return the zero polynomial: the
`other != poly` identity test skips the member itself, so the call returns
`x` unchanged. -/
theorem c2_counterexample :
    exX1 ∈ [exX1] ∧ (reduceAliased [exX1] 0).1 ≠ 0 := by
  refine ⟨List.mem_cons_self exX1 [], ?_⟩
  have h1 : (reduceAliased [exX1] 0).1 = exX1 := by
    show reduceLoop (some 0) [exX1] ([exX1].getD 0 0) = exX1
    exact reduceLoop_fix (of_decide_eq_true (by with_unfolding_all rfl))
  rw [h1]
  exact of_decide_eq_true (by with_unfolding_all rfl)

/-- C2 (amended): the division loop skips the basis member aliased by its
argument, so for a singleton basis `[g]` the member reduces to itself —
not to the zero polynomial — and the stored basis is unchanged. -/
theorem c2_theorem (g : Poly n) :
    (reduceAliased [g] 0).1 = g ∧ (reduceAliased [g] 0).2 = [g] := by
  have hpass : reducePass (some 0) [g] 0 g = (g, false) := by
    have hstep : passStep (decide ((some 0 : Option ℕ) = some 0)) g g =
        (g, false) := by
      unfold passStep
      rw [if_neg]
      rintro ⟨-, -, hskip, -⟩
      simp at hskip
    unfold reducePass
    rw [hstep]
    rfl
  have hfix : reduceLoop (some 0) [g] g = g := by
    apply reduceLoop_fix
    rw [hpass]
  constructor
  · show reduceLoop (some 0) [g] ([g].getD 0 0) = g
    exact hfix
  · show [g].set 0 (reduceLoop (some 0) [g] ([g].getD 0 0)) = [g]
    show [g].set 0 (reduceLoop (some 0) [g] g) = [g]
    rw [hfix]
    rfl

/-- C2 (witness): the amended statement at the concrete member `x`. -/
theorem c2_witness :
    (reduceAliased [exX1] 0).1 = exX1 ∧ (reduceAliased [exX1] 0).2 = [exX1] :=
  c2_theorem exX1

/-- C3: termination of the fixed-point division loop.  Every applicable
elimination step strictly decreases the working polynomial's leading term
under the (well-founded) term order, and consequently the `while change:`
loop reaches a pass over the basis that makes no change — the loop exits.
(The embedding uses exact rational coefficients; the leading coefficients
cancel exactly, as in the spec's argument.) -/
theorem c3_theorem :
    (∀ (p other : Poly n) (ltp lto : Mono n),
      leadTerm p = (ltp : WithBot (Mono n)) →
      leadTerm other = (lto : WithBot (Mono n)) →
      Mono.divides lto ltp →
      leadTerm (elimStep p other ltp lto) < leadTerm p) ∧
    ∀ (s : Option ℕ) (B : List (Poly n)) (p : Poly n),
      (reducePass s B 0 (reduceLoop s B p)).2 = false := by
  constructor
  · intro p other ltp lto hp ho hdiv
    exact elimStep_leadTerm_lt hp ho hdiv
  · intro s B p
    exact reduceLoop_terminates s B p

/-- C3 (witness): the strict decrease at the concrete step eliminating the
leading term of `x^2` against `x`, and loop exit on that input. -/
theorem c3_witness :
    leadTerm (elimStep exX1sq exX1 (toMono [2]) (toMono [1])) <
      leadTerm exX1sq ∧
    (reducePass none [exX1] 0 (reduceLoop none [exX1] exX1sq)).2 = false :=
  ⟨(c3_theorem (n := 1)).1 exX1sq exX1 (toMono [2]) (toMono [1])
      (of_decide_eq_true (by with_unfolding_all rfl))
      (of_decide_eq_true (by with_unfolding_all rfl))
      (of_decide_eq_true (by with_unfolding_all rfl)),
    (c3_theorem (n := 1)).2 none [exX1] exX1sq⟩

/-- C4: on every successfully constructed `RootFinder` instance, calling
`RootFinder.reduce_poly` raises `AttributeError` before performing any
elimination: the loop iterates over `self.old_polys`, and `__init__` — the
only method that assigns attributes — sets only `Groebner`, `GB`,
`vectorBasis` and `vectorSpaceDimension`. -/
theorem except_bind_err {α β : Type} (e : PyErr) (f : α → Except PyErr β) :
    (Except.error e >>= f) = Except.error e := rfl

theorem except_bind_ok {α β : Type} (a : α) (f : α → Except PyErr β) :
    (Except.ok a >>= f) = f a := rfl

theorem c4_theorem {GB : List (Poly n)} {attrs : List (String × RFVal n)}
    (p : Poly n) (h : rootFinderInit GB = Except.ok attrs) :
    rootFinderReducePoly attrs p = Except.error PyErr.attributeError := by
  unfold rootFinderInit at h
  rcases hmv : makeVectorBasis GB with e | v
  · rw [hmv, except_bind_err] at h
    exact absurd h (by simp)
  · rw [hmv, except_bind_ok] at h
    have h2 : [("Groebner", RFVal.groebnerObj GB), ("GB", RFVal.polyList GB),
        ("vectorBasis", RFVal.monoList v),
        ("vectorSpaceDimension", RFVal.natVal v.length)] = attrs := by
      injection h
    rw [← h2]
    rfl

/-- C4 (witness): the concrete instance built from the empty basis. -/
theorem c4_witness :
    rootFinderInit ([] : List (Poly 2)) = Except.ok c4ExAttrs ∧
    rootFinderReducePoly c4ExAttrs exOne = Except.error PyErr.attributeError := by
  have h : rootFinderInit ([] : List (Poly 2)) = Except.ok c4ExAttrs := by
    with_unfolding_all rfl
  exact ⟨h, c4_theorem exOne h⟩

/-- C5 (counterexample): `makeVectorBasis` does not fail fast.  On the
empty Groebner basis it returns the one-element basis `[()]` (dimension 1),
and on the basis `[x]` in two variables — whose leading terms bound no
candidate range for `y` — it returns the empty basis (dimension 0).  No
`DimensionError` / `NonFiniteIdealError` exists anywhere in the code. -/
theorem c5_counterexample :
    makeVectorBasis ([] : List (Poly 2)) = Except.ok [[]] ∧
    makeVectorBasis [exXvar] = Except.ok [] :=
  ⟨of_decide_eq_true (by with_unfolding_all rfl),
    of_decide_eq_true (by with_unfolding_all rfl)⟩

/-- C5 (amended): whenever every basis member has a leading term,
`makeVectorBasis` returns normally (possibly with a degenerate basis); the
only exception it can raise is the `TypeError` from `zip` over a `None`
leading term, never a `DimensionError`. -/
theorem c5_theorem (GB : List (Poly n)) (h : ∀ f ∈ GB, leadTerm f ≠ ⊥) :
    ∃ v, makeVectorBasis GB = Except.ok v := by
  unfold makeVectorBasis
  rw [if_pos h]
  exact ⟨_, rfl⟩

/-- C5 (witness): the amended statement at the concrete basis `[x]`. -/
theorem c5_witness :
    (∀ f ∈ [exXvar], leadTerm f ≠ ⊥) ∧
    ∃ v, makeVectorBasis [exXvar] = Except.ok v :=
  ⟨of_decide_eq_true (by with_unfolding_all rfl),
    c5_theorem [exXvar] (of_decide_eq_true (by with_unfolding_all rfl))⟩

/-- C6: `makeVectorBasis` on a basis whose members all have leading terms
returns exactly the exponent tuples of the candidate box — every exponent
strictly below that variable's maximum exponent over all leading terms —
that are divisible by no leading term (divisibility being non-negativity
of every per-variable exponent difference), listed in candidate-generation
order (the result is a sublist of the generated candidate list); in
particular, for leading terms `x^2` and `y^2` the result is the four
monomials `(0,0), (0,1), (1,0), (1,1)`, so the dimension is 4. -/
theorem c6_theorem (GB : List (Poly n)) (hGB : ∀ f ∈ GB, leadTerm f ≠ ⊥)
    (hne : GB ≠ []) :
    (∃ v, makeVectorBasis GB = Except.ok v ∧
      v.Sublist (prodList
        ((zipStar (GB.map (fun f => ofMono (ltDefault f)))).map
          (fun tup => List.range (tup.foldr max 0)))) ∧
      ∀ m : List ℕ, m ∈ v ↔
        (m.length = n ∧ ∀ i : Fin n, m.getD i 0 < maxExpVar GB i) ∧
        ∀ g ∈ GB, ¬ Mono.divides (ltDefault g) (toMono m)) ∧
    makeVectorBasis [exX2, exY2] =
      Except.ok [[0, 0], [0, 1], [1, 0], [1, 1]] := by
  constructor
  · refine ⟨makeVectorBasisCore (GB.map (fun f => ofMono (ltDefault f))),
      ?_, ?_, fun m => makeVectorBasisCore_mem hne m⟩
    · unfold makeVectorBasis
      rw [if_pos hGB]
    · exact List.filter_sublist _
  · exact of_decide_eq_true (by with_unfolding_all rfl)

/-- C6 (witness): the theorem applied to the concrete Groebner basis
`[x^2, y^2]`. -/
theorem c6_witness :
    (∃ v, makeVectorBasis [exX2, exY2] = Except.ok v ∧
      v.Sublist (prodList
        ((zipStar ([exX2, exY2].map (fun f => ofMono (ltDefault f)))).map
          (fun tup => List.range (tup.foldr max 0)))) ∧
      ∀ m : List ℕ, m ∈ v ↔
        (m.length = 2 ∧ ∀ i : Fin 2, m.getD i 0 < maxExpVar [exX2, exY2] i) ∧
        ∀ g ∈ [exX2, exY2], ¬ Mono.divides (ltDefault g) (toMono m)) ∧
    makeVectorBasis [exX2, exY2] =
      Except.ok [[0, 0], [0, 1], [1, 0], [1, 1]] :=
  c6_theorem [exX2, exY2] (of_decide_eq_true (by with_unfolding_all rfl))
    (by simp)

/-- C7: `coordinateVector` on a reduced polynomial all of whose monomials
lie in the (duplicate-free, `n`-variable) vector basis returns the vector
of length the dimension holding each monomial's coefficient verbatim at
that monomial's basis position and zero elsewhere; in particular, for a
basis monomial `m` irreducible modulo the Groebner basis, the coordinate
vector of the reduction of the monomial polynomial `m` is the standard
basis vector with `1` exactly at the position of `m`. -/
theorem c7_theorem (vb : List (List ℕ)) (hnd : vb.Nodup)
    (hlen : ∀ l ∈ vb, l.length = n) :
    (∀ p : Poly n, (∀ m ∈ p.support, ofMono m ∈ vb) →
      ∃ w, coordinateVector vb p = Except.ok w ∧ w.length = vb.length ∧
        ∀ j (hj : j < vb.length),
          w.getD j 0 = p (toMono (vb.get ⟨j, hj⟩))) ∧
    (∀ (GB : List (Poly n)) (l : List ℕ), l ∈ vb →
      (∀ g ∈ GB, ∀ ltg : Mono n, leadTerm g = (ltg : WithBot (Mono n)) →
        ¬ Mono.divides ltg (toMono l)) →
      ∃ w, coordinateVector vb (getRemainder GB (polySingle (toMono l) 1)) =
          Except.ok w ∧ w.length = vb.length ∧
        ∀ j (hj : j < vb.length),
          w.getD j 0 = if vb.get ⟨j, hj⟩ = l then 1 else 0) := by
  constructor
  · exact fun p hmem => coordinateVector_ok hnd hlen hmem
  · intro GB l hl hirr
    have h1 : getRemainder GB (polySingle (toMono l) 1) =
        polySingle (toMono l) 1 := by
      apply reduce_eq_self_of_irreducible
      intro g hg ltg ltp hltg hltp
      rw [leadTerm_polySingle _ one_ne_zero] at hltp
      have hlt : ltp = toMono l := (WithBot.coe_inj.mp hltp).symm
      rw [hlt]
      exact hirr g hg ltg hltg
    rw [h1]
    have hmem : ∀ m ∈ (polySingle (toMono l : Mono n) 1).support,
        ofMono m ∈ vb := by
      intro m hm
      rw [support_polySingle _ one_ne_zero] at hm
      have hml : m = toMono l := by simpa using hm
      rw [hml, ofMono_toMono (hlen l hl)]
      exact hl
    obtain ⟨w, hw, hwlen, hwval⟩ := coordinateVector_ok hnd hlen hmem
    refine ⟨w, hw, hwlen, fun j hj => ?_⟩
    rw [hwval j hj, polySingle_apply]
    by_cases hcase : vb.get ⟨j, hj⟩ = l
    · rw [if_pos hcase, if_pos]
      rw [hcase]
    · rw [if_neg hcase, if_neg]
      intro hc
      exact hcase (toMono_injective (hlen _ (List.get_mem vb j hj))
        (hlen l hl) hc)

/-- C7 (witness): the theorem applied to the concrete vector basis of
`[x^2, y^2]`. -/
theorem c7_witness :
    (∀ p : Poly 2,
      (∀ m ∈ p.support, ofMono m ∈ [[0, 0], [0, 1], [1, 0], [1, 1]]) →
      ∃ w, coordinateVector [[0, 0], [0, 1], [1, 0], [1, 1]] p =
          Except.ok w ∧
        w.length = [[0, 0], [0, 1], [1, 0], [1, 1]].length ∧
        ∀ j (hj : j < [[0, 0], [0, 1], [1, 0], [1, 1]].length),
          w.getD j 0 =
            p (toMono ([[0, 0], [0, 1], [1, 0], [1, 1]].get ⟨j, hj⟩))) ∧
    (∀ (GB : List (Poly 2)) (l : List ℕ),
      l ∈ [[0, 0], [0, 1], [1, 0], [1, 1]] →
      (∀ g ∈ GB, ∀ ltg : Mono 2, leadTerm g = (ltg : WithBot (Mono 2)) →
        ¬ Mono.divides ltg (toMono l)) →
      ∃ w, coordinateVector [[0, 0], [0, 1], [1, 0], [1, 1]]
          (getRemainder GB (polySingle (toMono l) 1)) = Except.ok w ∧
        w.length = [[0, 0], [0, 1], [1, 0], [1, 1]].length ∧
        ∀ j (hj : j < [[0, 0], [0, 1], [1, 0], [1, 1]].length),
          w.getD j 0 =
            if [[0, 0], [0, 1], [1, 0], [1, 1]].get ⟨j, hj⟩ = l
            then 1 else 0) :=
  c7_theorem [[0, 0], [0, 1], [1, 0], [1, 1]] (by decide) (by decide)

/-- C8: `coordinateVector` on a polynomial containing a monomial absent
from the vector basis always raises — either the `assert` on the term
count (`AssertionError`) or, as the claim notes, the `ValueError` from the
`list.index` lookup — and never returns a coordinate vector. -/
theorem c8_theorem (vb : List (List ℕ)) (p : Poly n)
    (hbad : ∃ m ∈ p.support, ofMono m ∉ vb) :
    (∃ e, coordinateVector vb p = Except.error e) ∧
    ∀ w, coordinateVector vb p ≠ Except.ok w := by
  obtain ⟨e, he⟩ := coordinateVector_err hbad
  refine ⟨⟨e, he⟩, fun w hw => ?_⟩
  rw [he] at hw
  exact absurd hw (by simp)

/-- C8 (witness): the failure at the concrete out-of-basis input `x y`
against the one-monomial basis `[(0,0)]`. -/
theorem c8_witness :
    (∃ m ∈ (exXY).support, ofMono m ∉ [[0, 0]]) ∧
    (∃ e, coordinateVector [[0, 0]] exXY = Except.error e) ∧
    ∀ w, coordinateVector [[0, 0]] exXY ≠ Except.ok w := by
  have hbad : ∃ m ∈ (exXY).support, ofMono m ∉ [[0, 0]] :=
    ⟨toMono [1, 1], of_decide_eq_true (by with_unfolding_all rfl),
      of_decide_eq_true (by with_unfolding_all rfl)⟩
  exact ⟨hbad, c8_theorem [[0, 0]] exXY hbad⟩

theorem exceptMapCols_head_err {f : List ℕ → Except PyErr (List ℚ)}
    {mon : List ℕ} {rest : List (List ℕ)} {e : PyErr}
    (h : f mon = Except.error e) :
    exceptMapCols f (mon :: rest) = Except.error e := by
  unfold exceptMapCols
  rw [h]
  rfl

/-- C9 (counterexample): against the Groebner basis `[x^2, y^3, x y^2]`
(a basis of monomials, hence a Groebner basis, of a zero-dimensional
ideal, with vector basis `[(0,0), (0,1), (0,2), (1,0), (1,1)]`), the
target polynomial `p = x y + y^3` makes `multOperatorMatrix` raise
`ValueError` instead of returning a matrix: the very first column
multiplies `p` by `(0,0)`, the head-reduction loop leaves `x y + y^3`
untouched (its leading term `x y` is divisible by no basis leading term),
and `coordinateVector` then fails on the out-of-basis monomial `y^3`. -/
theorem c9_counterexample :
    multOperatorMatrix exGB9 exVB9 exC9Poly = Except.error PyErr.valueError := by
  have hred : getRemainder exGB9 (monMult (toMono [0, 0]) exC9Poly) =
      monMult (toMono [0, 0]) exC9Poly := by
    show reduceLoop none exGB9 (monMult (toMono [0, 0]) exC9Poly) = _
    exact reduceLoop_fix (of_decide_eq_true (by with_unfolding_all rfl))
  have hcv : coordinateVector exVB9 (monMult (toMono [0, 0]) exC9Poly) =
      Except.error PyErr.valueError :=
    of_decide_eq_true (by with_unfolding_all rfl)
  show exceptMapCols
    (fun mon => coordinateVector exVB9
      (getRemainder exGB9 (monMult (toMono mon) exC9Poly)))
    ([0, 0] :: [[0, 1], [0, 2], [1, 0], [1, 1]]) = Except.error PyErr.valueError
  apply exceptMapCols_head_err
  show coordinateVector exVB9
    (getRemainder exGB9 (monMult (toMono [0, 0]) exC9Poly)) = _
  rw [hred]
  exact hcv

/-- C9 (amended): whenever every per-column computation succeeds —
each reduced product has all its monomials in the vector basis —
`multOperatorMatrix` returns the square matrix of side the vector-space
dimension whose column `i` is
`coordinateVector(getRemainder(poly.mon_mult(vectorBasis[i])))`; otherwise
the exception of the first failing column propagates and no matrix is
returned (see the counterexample). -/
theorem c9_theorem (GB : List (Poly n)) (vb : List (List ℕ)) (p : Poly n)
    (h : ∀ mon ∈ vb, ∃ c,
      coordinateVector vb (getRemainder GB (monMult (toMono mon) p)) =
        Except.ok c) :
    ∃ M, multOperatorMatrix GB vb p = Except.ok M ∧ M.length = vb.length ∧
      (∀ col ∈ M, col.length = vb.length) ∧
      ∀ j (hj : j < vb.length),
        coordinateVector vb
            (getRemainder GB (monMult (toMono (vb.get ⟨j, hj⟩)) p)) =
          Except.ok (M.getD j []) := by
  obtain ⟨M, hM, hlen, hval⟩ := exceptMapCols_ok (f := fun mon =>
    coordinateVector vb (getRemainder GB (monMult (toMono mon) p))) h
  refine ⟨M, hM, hlen, ?_, hval⟩
  intro col hcol
  obtain ⟨⟨j, hj⟩, hgetM⟩ := List.mem_iff_get.mp hcol
  have hj2 : j < vb.length := by rw [← hlen]; exact hj
  have hval2 := hval j hj2
  have hgd : M.getD j [] = M.get ⟨j, hj⟩ := by
    rw [List.getD_eq_getElem M [] hj, List.get_eq_getElem]
  rw [hgd, hgetM] at hval2
  exact coordinateVector_len hval2

/-- C9 (witness): the amended statement at the basis `[x, y]`, vector
basis `[(0,0)]` and target the constant polynomial `1`, where every
column succeeds. -/
theorem c9_witness :
    (∀ mon ∈ [[0, 0]], ∃ c, coordinateVector [[0, 0]]
        (getRemainder [exXvar, exYvar] (monMult (toMono mon) exOne)) =
          Except.ok c) ∧
    ∃ M, multOperatorMatrix [exXvar, exYvar] [[0, 0]] exOne =
        Except.ok M ∧ M.length = [[0, 0]].length ∧
      (∀ col ∈ M, col.length = [[0, 0]].length) ∧
      ∀ j (hj : j < [[0, 0]].length),
        coordinateVector [[0, 0]]
            (getRemainder [exXvar, exYvar]
              (monMult (toMono ([[0, 0]].get ⟨j, hj⟩)) exOne)) =
          Except.ok (M.getD j []) := by
  have hcol : ∀ mon ∈ [[0, 0]], ∃ c, coordinateVector [[0, 0]]
      (getRemainder [exXvar, exYvar] (monMult (toMono mon) exOne)) =
        Except.ok c := by
    intro mon hmon
    have hm : mon = [0, 0] := by simpa using hmon
    rw [hm]
    have hred : getRemainder [exXvar, exYvar]
        (monMult (toMono [0, 0]) exOne) = monMult (toMono [0, 0]) exOne := by
      show reduceLoop none [exXvar, exYvar] (monMult (toMono [0, 0]) exOne) = _
      exact reduceLoop_fix (of_decide_eq_true (by with_unfolding_all rfl))
    rw [hred]
    exact ⟨[1], of_decide_eq_true (by with_unfolding_all rfl)⟩
  exact ⟨hcol, c9_theorem [exXvar, exYvar] [[0, 0]] exOne hcol⟩

/-- C10 (counterexample): the division call whose argument aliases the
stored basis member `x^2` of the basis `[x, x^2]` overwrites that stored
member: after the call the basis list holds `[x, 0]`, so a stored basis
member was mutated. -/
theorem c10_counterexample :
    (reduceAliased [exX1, exX1sq] 1).2 ≠ [exX1, exX1sq] := by
  have h1 : (reducePass (some 1) [exX1, exX1sq] 0
      ([exX1, exX1sq].getD 1 0)).2 = true :=
    of_decide_eq_true (by with_unfolding_all rfl)
  have h2 : (reducePass (some 1) [exX1, exX1sq] 0
      ([exX1, exX1sq].getD 1 0)).1 = 0 :=
    of_decide_eq_true (by with_unfolding_all rfl)
  have h3 : reduceLoop (some 1) [exX1, exX1sq]
      ([exX1, exX1sq].getD 1 0) = 0 := by
    rw [reduceLoop_step h1, h2]
    exact reduceLoop_fix (of_decide_eq_true (by with_unfolding_all rfl))
  intro hc
  have h4 : (reduceAliased [exX1, exX1sq] 1).2 = [exX1, (0 : Poly 1)] := by
    show [exX1, exX1sq].set 1 (reduceLoop (some 1) [exX1, exX1sq]
      ([exX1, exX1sq].getD 1 0)) = [exX1, (0 : Poly 1)]
    rw [h3]
    rfl
  rw [h4] at hc
  simp only [List.cons.injEq] at hc
  exact absurd hc.2.1 (of_decide_eq_true (by with_unfolding_all rfl))

/-- C10 (amended): the division call mutates only the working polynomial
object.  A call whose argument aliases stored member `k` overwrites
exactly that member with the computed remainder; every stored member at
an index other than `k` is unchanged after the call (and a call on a
fresh, non-aliased argument touches no stored member at all). -/
theorem c10_theorem (B : List (Poly n)) (k : ℕ) :
    (reduceAliased B k).2 = B.set k (reduceAliased B k).1 ∧
    ∀ j, j ≠ k → (reduceAliased B k).2.getD j 0 = B.getD j 0 := by
  constructor
  · rfl
  · intro j hj
    show (B.set k (reduceLoop (some k) B (B.getD k 0))).getD j 0 = B.getD j 0
    exact getD_set_ne (fun hc => hj hc.symm)

/-- C10 (witness): the amended statement at the concrete basis
`[x, x^2]`, aliasing member 0. -/
theorem c10_witness :
    (reduceAliased [exX1, exX1sq] 0).2 =
      [exX1, exX1sq].set 0 (reduceAliased [exX1, exX1sq] 0).1 ∧
    ∀ j, j ≠ 0 →
      (reduceAliased [exX1, exX1sq] 0).2.getD j 0 =
        [exX1, exX1sq].getD j 0 :=
  c10_theorem [exX1, exX1sq] 0

end GroebnerSpec

